import Mathlib

set_option maxRecDepth 100000

/-!
Verification of the AI Code Reviewer backend (main.py).

The development shallowly embeds the Python program: strings are lists of
characters, JSON values are an explicit inductive type, the json module
serializer and decoder are modelled as executable Lean functions, and the
HTTP handler is a pure function of the request together with an
environment describing the outcome of the remote model call and of PDF
rendering.  Fallible Python code (code that can raise) is modelled with
the Except monad.
-/

/-! ## Python string primitives -/

/-- Characters stripped by the Python str.strip default (whitespace). -/
def pyIsSpace (c : Char) : Bool :=
  c = ' ' || c = '\t' || c = '\n' || c = '\r' || c = '\x0b' || c = '\x0c' ||
  c = '\x1c' || c = '\x1d' || c = '\x1e' || c = '\x1f' || c = '\x85' ||
  c = '\xa0' || c = ' ' ||
  (0x2000 ≤ c.toNat && c.toNat ≤ 0x200a) ||
  c = ' ' || c = ' ' || c = ' ' || c = ' ' || c = '　'

/-- Model of the Python str.strip method with no arguments. -/
def pyStrip (s : List Char) : List Char :=
  ((s.dropWhile pyIsSpace).reverse.dropWhile pyIsSpace).reverse

/-- Model of the Python substring test (pat in s).  Scans for pat as a
contiguous substring. -/
def containsSub (pat : List Char) : List Char → Bool
  | [] => pat.isEmpty
  | c :: rest => pat.isPrefixOf (c :: rest) || containsSub pat rest

/-- True when the list starts with three double-quote characters, the
delimiter used by build_prompt around the embedded code. -/
def startsTriple : List Char → Bool
  | '"' :: '"' :: '"' :: _ => true
  | _ => false

/-- Occurrence test for the triple-quote delimiter, modelling the Python
test for the delimiter occurring in the prompt. -/
def containsTriple : List Char → Bool
  | '"' :: '"' :: '"' :: _ => true
  | _ :: rest => containsTriple rest
  | [] => false

/-- Model of the Python str.split method specialised to the separator of
three double quotes: leftmost, non-overlapping occurrences split the
string into parts. -/
def splitTriple : List Char → List (List Char)
  | '"' :: '"' :: '"' :: rest => [] :: splitTriple rest
  | c :: rest =>
    match splitTriple rest with
    | h :: t => (c :: h) :: t
    | [] => [[c]]
  | [] => [[]]

/-- Line-boundary characters of the Python str.splitlines method.  The
carriage return is included; the pair CR LF is handled separately. -/
def isLineBreak (c : Char) : Bool :=
  c = '\n' || c = '\r' || c = '\x0b' || c = '\x0c' ||
  c = '\x1c' || c = '\x1d' || c = '\x1e' || c = '\x85' ||
  c = ' ' || c = ' '

/-- Worker for pySplitlines; acc holds the current line reversed.  At the
end of the input the pending line is emitted only when nonempty, which is
exactly when the input did not end at a line boundary.  The CR LF pair
counts as one boundary. -/
def pySplitlinesAux : List Char → List Char → List (List Char)
  | [], acc => if acc.isEmpty then [] else [acc.reverse]
  | [c], acc =>
    if isLineBreak c then acc.reverse :: pySplitlinesAux [] []
    else pySplitlinesAux [] (c :: acc)
  | c :: d :: rest, acc =>
    if c = '\r' && d = '\n' then acc.reverse :: pySplitlinesAux rest []
    else if isLineBreak c then acc.reverse :: pySplitlinesAux (d :: rest) []
    else pySplitlinesAux (d :: rest) (c :: acc)

/-- Model of the Python str.splitlines method with no arguments. -/
def pySplitlines (s : List Char) : List (List Char) := pySplitlinesAux s []

/-- Model of enumerate(xs, start): pairs each element with its index. -/
def enumFrom (start : Nat) : List α → List (Nat × α)
  | [] => []
  | x :: xs => (start, x) :: enumFrom (start + 1) xs

/-! ## Decimal digits (for the repr of non-negative integers) -/

/-- The decimal digit character for a value below ten. -/
def digitChar : Nat → Char
  | 0 => '0' | 1 => '1' | 2 => '2' | 3 => '3' | 4 => '4'
  | 5 => '5' | 6 => '6' | 7 => '7' | 8 => '8' | _ => '9'

/-- Numeric value of a decimal digit character. -/
def digitVal (c : Char) : Nat := c.toNat - 48

/-- Decimal digit test. -/
def isDig (c : Char) : Bool := 48 ≤ c.toNat && c.toNat ≤ 57

/-- Fuel-driven worker producing the decimal digits of n in front of acc. -/
def natDigitsGo : Nat → Nat → List Char → List Char
  | 0, _, acc => acc
  | f + 1, n, acc =>
    if n < 10 then digitChar n :: acc
    else natDigitsGo f (n / 10) (digitChar (n % 10) :: acc)

/-- Decimal representation of a natural number, as produced by the Python
repr of a non-negative int.  The fuel n + 1 always suffices. -/
def natDigits (n : Nat) : List Char := natDigitsGo (n + 1) n []

/-- Reference decimal representation, used in proofs. -/
def digitsSpec (n : Nat) : List Char :=
  if _h : n < 10 then [digitChar n]
  else digitsSpec (n / 10) ++ [digitChar (n % 10)]
decreasing_by exact Nat.div_lt_self (by omega) (by omega)

/-- Decimal representation of an integer, as produced by the Python repr
of an int (and by the json module for ints). -/
def intDumps (n : Int) : List Char :=
  if n < 0 then '-' :: natDigits n.natAbs else natDigits n.toNat

/-! ## JSON values

Python values decoded from JSON text (and the dict built by
simulate_analysis before serialization) are modelled by the mutual
inductive family JVal / JA (arrays) / JO (objects as ordered key-value
sequences, keys unique as for a Python dict). -/

mutual
inductive JVal where
  | null
  | jbool (b : Bool)
  | num (n : Int)
  | str (s : List Char)
  | arr (elems : JA)
  | obj (members : JO)
  deriving DecidableEq
inductive JA where
  | nil
  | cons (hd : JVal) (tl : JA)
  deriving DecidableEq
inductive JO where
  | nil
  | cons (key : List Char) (val : JVal) (tl : JO)
  deriving DecidableEq
end

/-- The elements of a JSON array as a Lean list. -/
def jaToList : JA → List JVal
  | .nil => []
  | .cons h t => h :: jaToList t

/-- Length of a JSON array. -/
def jaLen : JA → Nat
  | .nil => 0
  | .cons _ t => jaLen t + 1

/-- The keys of a JSON object, in order. -/
def joKeys : JO → List (List Char)
  | .nil => []
  | .cons k _ t => k :: joKeys t

/-- First value stored under a key. -/
def joLookup : JO → List Char → Option JVal
  | .nil, _ => none
  | .cons k0 v0 t, k => if k0 = k then some v0 else joLookup t k

/-- Python dict key-membership test. -/
def joHasKey (o : JO) (k : List Char) : Bool := (joLookup o k).isSome

/-- Python dict assignment d[k] = v: replaces the value in place when the
key is present, otherwise appends the new pair at the end. -/
def joAssign : JO → List Char → JVal → JO
  | .nil, k, v => .cons k v .nil
  | .cons k0 v0 t, k, v =>
    if k0 = k then .cons k0 v t else .cons k0 v0 (joAssign t k v)

/-- Python dict.setdefault(k, v) (result dict; the returned value is not
needed by the embedded code paths). -/
def joSetdefault (o : JO) (k : List Char) (v : JVal) : JO :=
  if joHasKey o k then o else joAssign o k v

/-- Sequential dict construction from a pair sequence: later pairs with a
duplicate key overwrite earlier values in place, as the Python json
decoder does when building an object. -/
def joDedupGo : JO → JO → JO
  | acc, .nil => acc
  | acc, .cons k v t => joDedupGo (joAssign acc k v) t

/-- Dict built from decoded object pairs (duplicate keys: last one wins). -/
def joDedup (o : JO) : JO := joDedupGo .nil o

/-! ## The json module serializer (json.dumps, default options) -/

/-- Lowercase hexadecimal digit character. -/
def hexDigitChar : Nat → Char
  | 0 => '0' | 1 => '1' | 2 => '2' | 3 => '3' | 4 => '4'
  | 5 => '5' | 6 => '6' | 7 => '7' | 8 => '8' | 9 => '9'
  | 10 => 'a' | 11 => 'b' | 12 => 'c' | 13 => 'd' | 14 => 'e' | _ => 'f'

/-- Four-digit hexadecimal rendering of a value below 0x10000. -/
def hex4 (n : Nat) : List Char :=
  [hexDigitChar (n / 4096 % 16), hexDigitChar (n / 256 % 16),
   hexDigitChar (n / 16 % 16), hexDigitChar (n % 16)]

/-- The backslash-u escape produced by json.dumps with ensure_ascii for a
code point, including the surrogate-pair form for the supplementary
planes. -/
def uEscape (n : Nat) : List Char :=
  if n < 0x10000 then '\\' :: 'u' :: hex4 n
  else
    let m := n - 0x10000
    ('\\' :: 'u' :: hex4 (0xd800 + m / 0x400)) ++
      ('\\' :: 'u' :: hex4 (0xdc00 + m % 0x400))

/-- Escaping of one character inside a JSON string literal, as produced by
json.dumps with its default ensure_ascii=True. -/
def escapeChar (c : Char) : List Char :=
  if c = '"' then ['\\', '"']
  else if c = '\\' then ['\\', '\\']
  else if c = '\n' then ['\\', 'n']
  else if c = '\t' then ['\\', 't']
  else if c = '\r' then ['\\', 'r']
  else if c = '\x08' then ['\\', 'b']
  else if c = '\x0c' then ['\\', 'f']
  else if c.toNat < 0x20 || 0x7e < c.toNat then uEscape c.toNat
  else [c]

/-- Escaping of a whole string body. -/
def escapeList : List Char → List Char
  | [] => []
  | c :: r => escapeChar c ++ escapeList r

/-- A JSON string literal for s, with surrounding quotes. -/
def dumpStr (s : List Char) : List Char := '"' :: escapeList s ++ ['"']

mutual
/-- Model of json.dumps with default arguments (separators comma-space and
colon-space, insertion key order). -/
def json_dumps_val : JVal → List Char
  | .null => "null".data
  | .jbool true => "true".data
  | .jbool false => "false".data
  | .num n => intDumps n
  | .str s => dumpStr s
  | .arr .nil => "[]".data
  | .arr (.cons h t) => '[' :: (json_dumps_val h ++ json_dumps_elems t) ++ [']']
  | .obj .nil => ['\x7b', '\x7d']
  | .obj (.cons k v t) =>
    '\x7b' :: (dumpStr k ++ ':' :: ' ' :: json_dumps_val v ++ json_dumps_members t)
      ++ ['\x7d']
/-- Continuation elements of an array, each preceded by comma-space. -/
def json_dumps_elems : JA → List Char
  | .nil => []
  | .cons h t => ',' :: ' ' :: (json_dumps_val h ++ json_dumps_elems t)
/-- Continuation members of an object, each preceded by comma-space. -/
def json_dumps_members : JO → List Char
  | .nil => []
  | .cons k v t =>
    ',' :: ' ' :: (dumpStr k ++ ':' :: ' ' :: json_dumps_val v ++ json_dumps_members t)
end

/-- Top-level json.dumps. -/
def json_dumps (v : JVal) : List Char := json_dumps_val v

/-! ## Python rendering, truthiness, iteration, attribute access -/

/-- Escaping of one character in the Python repr of a string quoted with q.
This models CPython for the character ranges appearing in this program:
backslash, the quote character, newline, carriage return, tab and other
C0 controls are escaped, other characters at or above space are kept. -/
def reprEsc (q : Char) (c : Char) : List Char :=
  if c = '\\' then ['\\', '\\']
  else if c = q then ['\\', q]
  else if c = '\n' then ['\\', 'n']
  else if c = '\r' then ['\\', 'r']
  else if c = '\t' then ['\\', 't']
  else if c.toNat < 0x20 || c.toNat = 0x7f then
    '\\' :: 'x' :: [hexDigitChar (c.toNat / 16 % 16), hexDigitChar (c.toNat % 16)]
  else [c]

/-- Worker mapping reprEsc over a string body. -/
def reprEscList (q : Char) : List Char → List Char
  | [] => []
  | c :: r => reprEsc q c ++ reprEscList q r

/-- Python repr of a string: single quotes unless the string contains a
single quote and no double quote. -/
def pyReprStr (s : List Char) : List Char :=
  let q : Char := if s.contains '\'' && !s.contains '"' then '"' else '\''
  q :: reprEscList q s ++ [q]

mutual
/-- Python repr of a decoded JSON value. -/
def pyReprVal : JVal → List Char
  | .null => "None".data
  | .jbool true => "True".data
  | .jbool false => "False".data
  | .num n => intDumps n
  | .str s => pyReprStr s
  | .arr .nil => "[]".data
  | .arr (.cons h t) => '[' :: (pyReprVal h ++ pyReprElems t) ++ [']']
  | .obj .nil => ['\x7b', '\x7d']
  | .obj (.cons k v t) =>
    '\x7b' :: (pyReprStr k ++ ':' :: ' ' :: pyReprVal v ++ pyReprMembers t) ++ ['\x7d']
/-- Remaining list elements in a repr. -/
def pyReprElems : JA → List Char
  | .nil => []
  | .cons h t => ',' :: ' ' :: (pyReprVal h ++ pyReprElems t)
/-- Remaining dict items in a repr. -/
def pyReprMembers : JO → List Char
  | .nil => []
  | .cons k v t =>
    ',' :: ' ' :: (pyReprStr k ++ ':' :: ' ' :: pyReprVal v ++ pyReprMembers t)
end

/-- Python str() of a decoded JSON value, as interpolated by an f-string:
a str is rendered verbatim, anything else via its repr. -/
def pyToStr : JVal → List Char
  | .str s => s
  | v => pyReprVal v

/-- Python truthiness of a decoded JSON value. -/
def pyTruthy : JVal → Bool
  | .null => false
  | .jbool b => b
  | .num n => decide (n ≠ 0)
  | .str s => !s.isEmpty
  | .arr .nil => false
  | .arr _ => true
  | .obj .nil => false
  | .obj _ => true

/-- Exceptions that the embedded code can raise and lets escape. -/
inductive PyErr where
  | typeError
  | attrError
  deriving DecidableEq

/-- Python iteration over a decoded JSON value: lists yield their
elements, strings their characters (as one-character strings), dicts
their keys; other values raise TypeError. -/
def pyIterate : JVal → Except PyErr (List JVal)
  | .arr a => .ok (jaToList a)
  | .str s => .ok (s.map fun c => JVal.str [c])
  | .obj o => .ok ((joKeys o).map JVal.str)
  | _ => .error .typeError

/-- The expression v.get(k, dflt): only dicts have the get attribute;
anything else raises AttributeError. -/
def pyGet (v : JVal) (k : List Char) (dflt : JVal) : Except PyErr JVal :=
  match v with
  | .obj o => .ok ((joLookup o k).getD dflt)
  | _ => .error .attrError

/-! ## The json module decoder (json.loads) -/

/-- JSON whitespace skipped by the decoder. -/
def skipWs : List Char → List Char
  | c :: rest =>
    if c = ' ' || c = '\t' || c = '\n' || c = '\r' then skipWs rest else c :: rest
  | [] => []

/-- Value of a hexadecimal digit character. -/
def hexVal (c : Char) : Option Nat :=
  if isDig c then some (digitVal c)
  else if 'a' ≤ c && c ≤ 'f' then some (c.toNat - 87)
  else if 'A' ≤ c && c ≤ 'F' then some (c.toNat - 55)
  else none

/-- Decoder for the body of a JSON string literal (after the opening
quote), returning the decoded characters and the input after the closing
quote.  Control characters are rejected (strict mode); surrogate escape
pairs are combined.  A lone surrogate escape, which CPython would keep as
an unpaired surrogate code unit, has no Lean Char counterpart and is
rejected; the program never produces one. -/
def parseStrBody : List Char → Option (List Char × List Char)
  | [] => none
  | '"' :: rest => some ([], rest)
  | '\\' :: esc =>
    match esc with
    | '"' :: r => (parseStrBody r).map fun p => ('"' :: p.1, p.2)
    | '\\' :: r => (parseStrBody r).map fun p => ('\\' :: p.1, p.2)
    | '/' :: r => (parseStrBody r).map fun p => ('/' :: p.1, p.2)
    | 'b' :: r => (parseStrBody r).map fun p => ('\x08' :: p.1, p.2)
    | 'f' :: r => (parseStrBody r).map fun p => ('\x0c' :: p.1, p.2)
    | 'n' :: r => (parseStrBody r).map fun p => ('\n' :: p.1, p.2)
    | 'r' :: r => (parseStrBody r).map fun p => ('\r' :: p.1, p.2)
    | 't' :: r => (parseStrBody r).map fun p => ('\t' :: p.1, p.2)
    | 'u' :: h1 :: h2 :: h3 :: h4 :: r =>
      match hexVal h1, hexVal h2, hexVal h3, hexVal h4 with
      | some a, some b, some c, some d =>
        let n := ((a * 16 + b) * 16 + c) * 16 + d
        if n < 0xd800 || 0xdfff < n then
          (parseStrBody r).map fun p => (Char.ofNat n :: p.1, p.2)
        else if n < 0xdc00 then
          match r with
          | '\\' :: 'u' :: g1 :: g2 :: g3 :: g4 :: r2 =>
            match hexVal g1, hexVal g2, hexVal g3, hexVal g4 with
            | some a2, some b2, some c2, some d2 =>
              let m := ((a2 * 16 + b2) * 16 + c2) * 16 + d2
              if 0xdc00 ≤ m && m ≤ 0xdfff then
                (parseStrBody r2).map fun p =>
                  (Char.ofNat (0x10000 + (n - 0xd800) * 0x400 + (m - 0xdc00)) :: p.1,
                   p.2)
              else none
            | _, _, _, _ => none
          | _ => none
        else none
      | _, _, _, _ => none
    | _ => none
  | c :: rest =>
    if c.toNat < 0x20 then none
    else (parseStrBody rest).map fun p => (c :: p.1, p.2)

/-- Longest leading run of decimal digits. -/
def spanDigits : List Char → List Char × List Char
  | [] => ([], [])
  | c :: rest =>
    if isDig c then
      let p := spanDigits rest
      (c :: p.1, p.2)
    else ([], c :: rest)

/-- Value of a digit string. -/
def digitsValue (ds : List Char) : Nat :=
  ds.foldl (fun a c => 10 * a + digitVal c) 0

/-- The json number grammar forbids leading zeros. -/
def leadingOk : List Char → Bool
  | '0' :: [] => true
  | '0' :: _ => false
  | _ => true

/-- Decoder for an unsigned integer token.  Numbers with a fraction or
exponent part decode to Python floats; floating point is outside this
model (the program never serializes floats), so such tokens are rejected
here. -/
def parseUIntToken (s : List Char) : Option (Nat × List Char) :=
  let p := spanDigits s
  if p.1.isEmpty then none
  else if leadingOk p.1 then
    match p.2 with
    | c :: _ =>
      if c = '.' || c = 'e' || c = 'E' then none
      else some (digitsValue p.1, p.2)
    | [] => some (digitsValue p.1, p.2)
  else none

/-- Decoder for an integer token with optional leading minus. -/
def parseIntToken : List Char → Option (Int × List Char)
  | [] => none
  | c :: rest =>
    if c = '-' then (parseUIntToken rest).map fun p => (-(p.1 : Int), p.2)
    else (parseUIntToken (c :: rest)).map fun p => ((p.1 : Int), p.2)

mutual
/-- Fuel-driven decoder for one JSON value at the head of the input (no
leading whitespace).  NaN and Infinity, which CPython accepts as floats,
are rejected like all other float syntax. -/
def parseVal : Nat → List Char → Option (JVal × List Char)
  | 0, _ => none
  | f + 1, s =>
    match s with
    | '"' :: rest => (parseStrBody rest).map fun p => (JVal.str p.1, p.2)
    | 'n' :: 'u' :: 'l' :: 'l' :: rest => some (.null, rest)
    | 't' :: 'r' :: 'u' :: 'e' :: rest => some (.jbool true, rest)
    | 'f' :: 'a' :: 'l' :: 's' :: 'e' :: rest => some (.jbool false, rest)
    | '[' :: rest => (parseArrBody f (skipWs rest)).map fun p => (JVal.arr p.1, p.2)
    | '\x7b' :: rest =>
      (parseObjBody f (skipWs rest)).map fun p => (JVal.obj (joDedup p.1), p.2)
    | _ => (parseIntToken s).map fun p => (JVal.num p.1, p.2)
/-- Array elements after the opening bracket (whitespace skipped),
including the closing bracket. -/
def parseArrBody : Nat → List Char → Option (JA × List Char)
  | 0, _ => none
  | f + 1, s =>
    match s with
    | ']' :: rest => some (.nil, rest)
    | _ => do
      let (v, r) ← parseVal f s
      match skipWs r with
      | ',' :: r2 => do
        let (tl, r3) ← parseArrBody f (skipWs r2)
        match tl with
        | .nil => none
        | _ => some (.cons v tl, r3)
      | ']' :: r2 => some (.cons v .nil, r2)
      | _ => none
/-- Object members after the opening brace (whitespace skipped), as the
raw pair sequence in textual order, including the closing brace. -/
def parseObjBody : Nat → List Char → Option (JO × List Char)
  | 0, _ => none
  | f + 1, s =>
    match s with
    | '\x7d' :: rest => some (.nil, rest)
    | '"' :: rest => do
      let (k, r1) ← parseStrBody rest
      match skipWs r1 with
      | ':' :: r2 => do
        let (v, r3) ← parseVal f (skipWs r2)
        match skipWs r3 with
        | ',' :: r4 => do
          let (tl, r5) ← parseObjBody f (skipWs r4)
          match tl with
          | .nil => none
          | _ => some (.cons k v tl, r5)
        | '\x7d' :: r4 => some (.cons k v .nil, r4)
        | _ => none
      | _ => none
    | _ => none
end

/-- Model of json.loads: decode one value surrounded by optional
whitespace; anything else is a decode failure. -/
def json_loads (s : List Char) : Option JVal :=
  match parseVal (2 * s.length + 4) (skipWs s) with
  | some (v, rest) => if (skipWs rest).isEmpty then some v else none
  | none => none

/-! ## The embedded program: main.py -/

/-- The triple-quote delimiter the prompt puts around the code. -/
def tripleQuote : List Char := ['"', '"', '"']

/-- Text of the prompt before the language name. -/
def promptPartA : List Char :=
  "\nYou are a senior software engineer and code reviewer. Analyze the ".data

/-- Text of the prompt between the language name and the code delimiter. -/
def promptPartB : List Char :=
  (" code and return a JSON object ONLY:\n" ++
   "- summary, issues, suggestions, automatic_fixes, effort_estimate, " ++
   "docs_updates, metadata.\nCODE:\n").data

/-- Model of build_prompt: the f-string of main.py with language and code
interpolated. -/
def build_prompt (code language : List Char) : List Char :=
  promptPartA ++ language ++ promptPartB ++ tripleQuote ++ code ++ tripleQuote
    ++ ['\n']

/-- The first lines of simulate_analysis: code starts empty; when the
triple-quote delimiter occurs in the prompt, the prompt is split on it and
part 1 (the text between the first two delimiter occurrences) is taken. -/
def extract_code (prompt : List Char) : List Char :=
  if containsTriple prompt then
    match splitTriple prompt with
    | _ :: p1 :: _ => p1
    | _ => []
  else []

/-- Initial summary text of the simulated analysis. -/
def summaryBase : List Char := "Simulated analysis (LLM not available).".data

/-- Sentence appended to the summary when no issue was found. -/
def summaryNoIssues : List Char := " No obvious runtime errors detected.".data

/-- The per-line division-by-zero test of simulate_analysis: the line
contains slash-space-zero, or slash-zero once spaces are removed. -/
def lineMatches (line : List Char) : Bool :=
  containsSub "/ 0".data line ||
  containsSub "/0".data (line.filter fun c => c != ' ')

/-- The issue dict appended for a matching line. -/
def issueJ (idx : Nat) : JVal :=
  .obj (.cons "line".data (.num idx)
    (.cons "severity".data (.str "high".data)
      (.cons "title".data (.str "ZeroDivisionError possible".data)
        (.cons "description".data
          (.str ("Division by zero detected. This will raise an exception " ++
            "at runtime.").data) .nil))))

/-- The suggestion string appended for a matching line. -/
def suggestionStr : List Char :=
  "Check for division by zero before performing division.".data

/-- The automatic-fix dict appended for a matching line. -/
def fixJ : JVal :=
  .obj (.cons "description".data (.str "Add check for zero denominator".data)
    (.cons "patch".data
      (.str ("if b != 0:\n    result = a / b\nelse:\n" ++
        "    result = None  # handle error").data) .nil))

/-- The scanning loop of simulate_analysis over the enumerated lines,
building the issues, suggestions and automatic_fixes lists in step. -/
def simScan : List (Nat × List Char) → JA × JA × JA
  | [] => (.nil, .nil, .nil)
  | (idx, line) :: rest =>
    let p := simScan rest
    if lineMatches line then
      (.cons (issueJ idx) p.1, .cons (.str suggestionStr) p.2.1,
       .cons fixJ p.2.2)
    else p

/-- The dict simulate_analysis serializes (insertion order of main.py). -/
def simJO (prompt : List Char) : JO :=
  let code := extract_code prompt
  let scan := simScan (enumFrom 1 (pySplitlines code))
  let summary :=
    if scan.1 = JA.nil then summaryBase ++ summaryNoIssues else summaryBase
  .cons "summary".data (.str summary)
    (.cons "issues".data (.arr scan.1)
      (.cons "suggestions".data (.arr scan.2.1)
        (.cons "automatic_fixes".data (.arr scan.2.2)
          (.cons "effort_estimate".data (.str "5-15 minutes".data)
            (.cons "docs_updates".data
              (.arr (.cons (.str "Add README section describing usage.".data) .nil))
              (.cons "metadata".data
                (.obj (.cons "language".data (.str "python".data)
                  (.cons "analysis_time".data (.str "simulated".data) .nil)))
                .nil))))))

/-- Model of simulate_analysis: extract the code, scan it, serialize. -/
def simulate_analysis (prompt : List Char) : List Char :=
  json_dumps (.obj (simJO prompt))

/-- Outcome of the HTTP call to the model server inside call_llm: either
every step of the try block succeeded and the body yielded a completion
text (the empty string when the completion field is missing), or some
step raised (transport error, timeout, non-success status,
non-JSON body, non-dict body). -/
inductive LLMOutcome where
  | success (completion : List Char)
  | failure
  deriving DecidableEq

/-- Model of call_llm: the completion on success; on any failure the
exception is swallowed and the simulated analysis of the prompt is
returned. -/
def call_llm (outcome : LLMOutcome) (prompt : List Char) : List Char :=
  match outcome with
  | .success completion => completion
  | .failure => simulate_analysis prompt

/-- The dict built by the except branch of the parsing block of
analyze_code. -/
def fallbackJO (raw language : List Char) : JO :=
  .cons "summary".data (.str raw)
    (.cons "issues".data (.arr .nil)
      (.cons "suggestions".data (.arr .nil)
        (.cons "automatic_fixes".data (.arr .nil)
          (.cons "effort_estimate".data .null
            (.cons "docs_updates".data (.arr .nil)
              (.cons "metadata".data
                (.obj (.cons "language".data (.str language) .nil)) .nil))))))

/-- The try/except parsing block of analyze_code: decode the raw response;
on a dict, ensure a metadata entry exists and give its language key a
default; any exception (decode failure, setdefault on a non-dict, or a
non-dict metadata value) selects the fallback dict. -/
def parse_llm_output (raw language : List Char) : JO :=
  match json_loads raw with
  | some (.obj kvs) =>
    let kvs1 := joSetdefault kvs "metadata".data (.obj .nil)
    match joLookup kvs1 "metadata".data with
    | some (.obj m) =>
      joAssign kvs1 "metadata".data
        (.obj (joSetdefault m "language".data (.str language)))
    | _ => fallbackJO raw language
  | some _ => fallbackJO raw language
  | none => fallbackJO raw language

/-! ### format_analysis

The section header strings below reproduce the exact characters of
main.py (the file stores mojibake sequences where emoji were intended);
the code points are written explicitly. -/

/-- Header line of the Summary section. -/
def hdrSummary : List Char :=
  "### ".data ++ [Char.ofNat 0x201a, Char.ofNat 0xfa, Char.ofNat 0xd6] ++
    " Summary\n".data

/-- Header line of the Issues Found section. -/
def hdrIssues : List Char :=
  "### ".data ++ [Char.ofNat 0x201a, Char.ofNat 0xf9, Char.ofNat 0xe5] ++
    " Issues Found\n".data

/-- Header line of the Suggestions section. -/
def hdrSuggestions : List Char :=
  "### ".data ++
    [Char.ofNat 0xf8ff, Char.ofNat 0xfc, Char.ofNat 0xed, Char.ofNat 0xb0] ++
    " Suggestions\n".data

/-- Header line of the Automatic Fixes section. -/
def hdrFixes : List Char :=
  "### ".data ++
    [Char.ofNat 0xf8ff, Char.ofNat 0xfc, Char.ofNat 0xf5, Char.ofNat 0x2020,
     Char.ofNat 0xd4, Char.ofNat 0x220f, Char.ofNat 0xe8] ++
    " Automatic Fixes\n".data

/-- Header line of the Estimated Effort section. -/
def hdrEffort : List Char :=
  "### ".data ++
    [Char.ofNat 0x201a, Char.ofNat 0xe8, Char.ofNat 0xb1, Char.ofNat 0xd4,
     Char.ofNat 0x220f, Char.ofNat 0xe8] ++
    " Estimated Effort\n".data

/-- Header line of the Documentation Updates section. -/
def hdrDocs : List Char :=
  "### ".data ++
    [Char.ofNat 0xf8ff, Char.ofNat 0xfc, Char.ofNat 0xec, Char.ofNat 0xd1] ++
    " Documentation Updates\n".data

/-- One numbered issue line of the Issues Found section; the line value is
fetched first, as in the source, then the f-string fields left to
right. -/
def fmtIssueLine (i : Nat) (issue : JVal) : Except PyErr (List Char) := do
  let line ← pyGet issue "line".data (.str "N/A".data)
  let title ← pyGet issue "title".data .null
  let severity ← pyGet issue "severity".data .null
  let description ← pyGet issue "description".data .null
  .ok (natDigits i ++ ". **".data ++ pyToStr title ++ "** (line ".data ++
    pyToStr line ++ ", severity ".data ++ pyToStr severity ++ "): ".data ++
    pyToStr description ++ ['\n'])

/-- One Automatic Fixes chunk: description in bold, patch in a fenced code
block. -/
def fmtFixChunk (fix : JVal) : Except PyErr (List Char) := do
  let description ← pyGet fix "description".data .null
  let patch ← pyGet fix "patch".data .null
  .ok ("**".data ++ pyToStr description ++ "**\n".data ++ "```python\n".data ++
    pyToStr patch ++ "\n```\n".data)

/-- The Issues Found section: guarded by the truthiness of the issues
field, iterating its value (which raises on a non-iterable), one line per
element. -/
def fmtIssuesSection (analysis : JO) : Except PyErr (List Char) :=
  let issuesVal := (joLookup analysis "issues".data).getD .null
  if pyTruthy issuesVal then do
    let elems ← pyIterate issuesVal
    let chunks ← (enumFrom 1 elems).mapM fun p => fmtIssueLine p.1 p.2
    pure (hdrIssues ++ chunks.flatten ++ ['\n'])
  else pure []

/-- The Suggestions section. -/
def fmtSuggestionsSection (analysis : JO) : Except PyErr (List Char) :=
  let suggVal := (joLookup analysis "suggestions".data).getD .null
  if pyTruthy suggVal then do
    let elems ← pyIterate suggVal
    pure (hdrSuggestions ++
      (elems.map fun s => "- ".data ++ pyToStr s ++ ['\n']).flatten ++ ['\n'])
  else pure []

/-- The Automatic Fixes section. -/
def fmtFixesSection (analysis : JO) : Except PyErr (List Char) :=
  let fixVal := (joLookup analysis "automatic_fixes".data).getD .null
  if pyTruthy fixVal then do
    let elems ← pyIterate fixVal
    let chunks ← elems.mapM fmtFixChunk
    pure (hdrFixes ++ chunks.flatten ++ ['\n'])
  else pure []

/-- The Estimated Effort section (cannot raise). -/
def fmtEffortSection (analysis : JO) : List Char :=
  let effortVal := (joLookup analysis "effort_estimate".data).getD .null
  if pyTruthy effortVal then hdrEffort ++ pyToStr effortVal ++ "\n\n".data
  else []

/-- The Documentation Updates section. -/
def fmtDocsSection (analysis : JO) : Except PyErr (List Char) :=
  let docsVal := (joLookup analysis "docs_updates".data).getD .null
  if pyTruthy docsVal then do
    let elems ← pyIterate docsVal
    pure (hdrDocs ++
      (elems.map fun d => "- ".data ++ pyToStr d ++ ['\n']).flatten ++ ['\n'])
  else pure []

/-- Model of format_analysis.  The argument is the parsed dict (a dict in
every reachable call).  Sections other than Summary are guarded by the
truthiness of their field; iterating a non-iterable value or calling get
on a non-dict element raises, and the exception escapes this function. -/
def format_analysis (analysis : JO) : Except PyErr (List Char) := do
  let out1 := hdrSummary ++
    pyToStr ((joLookup analysis "summary".data).getD (.str [])) ++ "\n\n".data
  let out2 ← fmtIssuesSection analysis
  let out3 ← fmtSuggestionsSection analysis
  let out4 ← fmtFixesSection analysis
  let out5 := fmtEffortSection analysis
  let out6 ← fmtDocsSection analysis
  .ok (out1 ++ out2 ++ out3 ++ out4 ++ out5 ++ out6)

/-! ### The analyze endpoint -/

/-- Request body of POST /analyze.  The defaults mirror the pydantic
model; the embedding covers requests whose optional fields carry values
of their declared types. -/
structure CodeRequest where
  code : List Char
  language : List Char := "python".data
  request_pdf : Bool := false
  deriving DecidableEq

/-- Environment of one request: the outcome of the remote model call, the
module flag for the availability of the fpdf library, and whether the PDF
rendering calls succeed. -/
structure Env where
  llm : LLMOutcome
  pdf_available : Bool
  pdf_render_ok : Bool
  deriving DecidableEq

/-- The response value produced by the handler.  A raised HTTPException is
rendered by the framework as an error response with the given status; a
FileResponse with a PDF body is recorded without its bytes; a plain-text
FileResponse carries the written file content. -/
inductive Response where
  | httpError (status : Nat) (detail : List Char)
  | jsonBody (formatted_analysis : List Char) (raw : JO)
  | pdfFile (media_type filename : List Char)
  | textFile (media_type filename content : List Char)
  deriving DecidableEq

/-- Model of the analyze_code handler.  An uncaught Python exception is
the error case of the Except result (surfaced by the framework as an
internal server error). -/
def analyze_code (env : Env) (req : CodeRequest) : Except PyErr Response :=
  if (pyStrip req.code).isEmpty then
    .ok (.httpError 400 "No code provided.".data)
  else
    let prompt := build_prompt req.code req.language
    let raw_response := call_llm env.llm prompt
    let parsed := parse_llm_output raw_response req.language
    match format_analysis parsed with
    | .error e => .error e
    | .ok formatted =>
      if req.request_pdf then
        if env.pdf_available && env.pdf_render_ok then
          .ok (.pdfFile "application/pdf".data "analysis.pdf".data)
        else
          .ok (.textFile "text/plain".data "analysis.txt".data formatted)
      else
        .ok (.jsonBody formatted parsed)

/-! ## Dict lemmas -/

theorem joLookup_joAssign_self : ∀ (o : JO) (k : List Char) (v : JVal),
    joLookup (joAssign o k v) k = some v
  | .nil, k, v => by simp [joAssign, joLookup]
  | .cons k0 v0 t, k, v => by
    by_cases h : k0 = k
    · simp [joAssign, joLookup, h]
    · simp [joAssign, joLookup, h, joLookup_joAssign_self t k v]

theorem joLookup_joSetdefault_self (o : JO) (k : List Char) (v : JVal) :
    joLookup (joSetdefault o k v) k = some ((joLookup o k).getD v) := by
  unfold joSetdefault joHasKey
  cases h : joLookup o k with
  | none => simp [h, joLookup_joAssign_self]
  | some w => simp [h]

/-! ## Claim C2: empty or whitespace-only code is rejected with 400 -/

theorem pyStrip_eq_nil_iff (s : List Char) :
    pyStrip s = [] ↔ ∀ c ∈ s, pyIsSpace c = true := by
  unfold pyStrip
  constructor
  · intro h
    have h1 : (s.dropWhile pyIsSpace).reverse.dropWhile pyIsSpace = [] := by
      simpa using congrArg List.reverse h
    have h2 : ∀ c ∈ s.dropWhile pyIsSpace, pyIsSpace c = true := by
      intro c hc
      exact List.dropWhile_eq_nil_iff.mp h1 c (by simpa using hc)
    intro c hc
    rw [← List.takeWhile_append_dropWhile (p := pyIsSpace) (l := s)] at hc
    rcases List.mem_append.mp hc with h3 | h3
    · exact List.mem_takeWhile_imp h3
    · exact h2 c h3
  · intro h
    have h1 : s.dropWhile pyIsSpace = [] := List.dropWhile_eq_nil_iff.mpr h
    simp [h1]

/-- Claim C2: for every request whose code field is empty or consists only
of whitespace, the /analyze handler fails with HTTP status 400 (detail
"No code provided.") and performs no analysis: the outcome is this error
response whatever the environment (model server, PDF library) would have
done, so no prompt is built and no provider is called. -/
theorem C2_empty_code_rejected (env : Env) (req : CodeRequest)
    (h : ∀ c ∈ req.code, pyIsSpace c = true) :
    analyze_code env req = .ok (.httpError 400 "No code provided.".data) := by
  unfold analyze_code
  rw [if_pos]
  simp [(pyStrip_eq_nil_iff req.code).mpr h]

/-- Witness for C2 at a whitespace-only code and at the empty code. -/
theorem C2_empty_code_rejected_witness :
    analyze_code ⟨.failure, true, true⟩ ⟨" \t\n".data, "python".data, false⟩ =
      .ok (.httpError 400 "No code provided.".data) ∧
    analyze_code ⟨.success "x".data, false, false⟩ ⟨[], "java".data, true⟩ =
      .ok (.httpError 400 "No code provided.".data) :=
  ⟨C2_empty_code_rejected _ _ (by decide), C2_empty_code_rejected _ _ (by decide)⟩

/-! ## Claim C6: the result parser contract -/

/-- Whether a decoded value already carries a language entry inside a dict
metadata entry, in which case the parsing block leaves it unchanged. -/
def decodedSetsLanguage : JVal → Bool
  | .obj kvs =>
    match joLookup kvs "metadata".data with
    | some (.obj m) => joHasKey m "language".data
    | _ => false
  | _ => false

/-- Claim C6: for every provider output text, if it decodes as JSON then
the parsed dict has a metadata entry that is a dict, and its language key
equals the declared language of the request whenever the decoded value
did not already set one; if decoding fails, the parsed dict is the
fallback whose summary is the raw text verbatim and whose issues,
suggestions, automatic_fixes and docs_updates are all empty. -/
theorem C6_parser_contract (raw language : List Char) :
    (∀ v, json_loads raw = some v →
      ∃ m, joLookup (parse_llm_output raw language) "metadata".data =
          some (.obj m) ∧
        (decodedSetsLanguage v = false →
          joLookup m "language".data = some (.str language))) ∧
    (json_loads raw = none →
      parse_llm_output raw language = fallbackJO raw language ∧
      joLookup (fallbackJO raw language) "summary".data = some (.str raw) ∧
      joLookup (fallbackJO raw language) "issues".data = some (.arr .nil) ∧
      joLookup (fallbackJO raw language) "suggestions".data =
        some (.arr .nil) ∧
      joLookup (fallbackJO raw language) "automatic_fixes".data =
        some (.arr .nil) ∧
      joLookup (fallbackJO raw language) "docs_updates".data =
        some (.arr .nil)) := by
  constructor
  · intro v hv
    unfold parse_llm_output
    rw [hv]
    cases v with
    | obj kvs =>
      have hset := joLookup_joSetdefault_self kvs "metadata".data (.obj .nil)
      cases hm : joLookup (joSetdefault kvs "metadata".data (.obj .nil))
          "metadata".data with
      | none => simp [hm] at hset
      | some w =>
        cases w with
        | obj m =>
          refine ⟨joSetdefault m "language".data (.str language), ?_, ?_⟩
          · simp only [hm, joLookup_joAssign_self]
          · intro hnot
            have hmfree : joHasKey m "language".data = false := by
              unfold decodedSetsLanguage at hnot
              unfold joSetdefault at hm
              by_cases hk : joHasKey kvs "metadata".data
              · rw [if_pos hk] at hm
                simp only [hm] at hnot
                exact hnot
              · rw [if_neg hk] at hm
                rw [joLookup_joAssign_self] at hm
                cases hm
                rfl
            rw [joLookup_joSetdefault_self]
            unfold joHasKey at hmfree
            cases hml : joLookup m "language".data with
            | none => simp
            | some u => simp [hml] at hmfree
        | null =>
          refine ⟨JO.cons "language".data (.str language) .nil, ?_, fun _ => rfl⟩
          simp only [hm]
          rfl
        | jbool b =>
          refine ⟨JO.cons "language".data (.str language) .nil, ?_, fun _ => rfl⟩
          simp only [hm]
          rfl
        | num n =>
          refine ⟨JO.cons "language".data (.str language) .nil, ?_, fun _ => rfl⟩
          simp only [hm]
          rfl
        | str s =>
          refine ⟨JO.cons "language".data (.str language) .nil, ?_, fun _ => rfl⟩
          simp only [hm]
          rfl
        | arr a =>
          refine ⟨JO.cons "language".data (.str language) .nil, ?_, fun _ => rfl⟩
          simp only [hm]
          rfl
    | null => exact ⟨JO.cons "language".data (.str language) .nil, rfl, fun _ => rfl⟩
    | jbool b => exact ⟨JO.cons "language".data (.str language) .nil, rfl, fun _ => rfl⟩
    | num n => exact ⟨JO.cons "language".data (.str language) .nil, rfl, fun _ => rfl⟩
    | str s => exact ⟨JO.cons "language".data (.str language) .nil, rfl, fun _ => rfl⟩
    | arr a => exact ⟨JO.cons "language".data (.str language) .nil, rfl, fun _ => rfl⟩
  · intro hv
    unfold parse_llm_output
    rw [hv]
    exact ⟨rfl, rfl, rfl, rfl, rfl, rfl⟩

/-- Witness for C6: a decodable output (an empty JSON object) gains a
metadata dict carrying the declared language; an undecodable output
yields the verbatim fallback. -/
theorem C6_parser_contract_witness :
    (∃ m, joLookup (parse_llm_output ['\x7b', '\x7d'] "python".data)
        "metadata".data = some (.obj m) ∧
      (decodedSetsLanguage (.obj .nil) = false →
        joLookup m "language".data = some (.str "python".data))) ∧
    (parse_llm_output "x".data "python".data =
        fallbackJO "x".data "python".data ∧
      joLookup (fallbackJO "x".data "python".data) "summary".data =
        some (.str "x".data) ∧
      joLookup (fallbackJO "x".data "python".data) "issues".data =
        some (.arr .nil) ∧
      joLookup (fallbackJO "x".data "python".data) "suggestions".data =
        some (.arr .nil) ∧
      joLookup (fallbackJO "x".data "python".data) "automatic_fixes".data =
        some (.arr .nil) ∧
      joLookup (fallbackJO "x".data "python".data) "docs_updates".data =
        some (.arr .nil)) :=
  ⟨(C6_parser_contract ['\x7b', '\x7d'] "python".data).1 (.obj .nil) rfl,
   (C6_parser_contract "x".data "python".data).2 rfl⟩

/-! ## Lemmas on the triple-quote delimiter functions -/

theorem startsTriple_false_of_ne (c : Char) (l : List Char)
    (h : ∀ x, c :: l ≠ '"' :: '"' :: '"' :: x) :
    startsTriple (c :: l) = false := by
  rw [startsTriple.eq_def]
  split
  · rename_i x heq
    exact absurd heq (by intro hh; exact h _ hh)
  · rfl

theorem startsTriple_iff (s : List Char) :
    startsTriple s = true ↔ ∃ t, s = '"' :: '"' :: '"' :: t := by
  rw [startsTriple.eq_def]
  split
  · rename_i x
    constructor
    · intro _
      exact ⟨x, rfl⟩
    · intro _
      rfl
  · rename_i hne
    constructor
    · intro h
      exact absurd h (by simp)
    · rintro ⟨t, ht⟩
      exact ((hne t) ht).elim

theorem containsTriple_cons (c : Char) (l : List Char) :
    containsTriple (c :: l) = (startsTriple (c :: l) || containsTriple l) := by
  rw [containsTriple.eq_def]
  split
  · rename_i heq
    rw [heq]
    simp [startsTriple, containsTriple]
  · rename_i c' l' hne heq
    injection heq with h1 h2
    subst h1
    subst h2
    have hs : startsTriple (c :: l) = false := startsTriple_false_of_ne c l (by
      intro x hh
      simp only [List.cons.injEq] at hh
      exact hne x hh.1 hh.2)
    rw [hs]
    simp
  · rename_i heq
    exact absurd heq (by simp)

theorem splitTriple_cons_not (c : Char) (l : List Char)
    (h : startsTriple (c :: l) = false) :
    splitTriple (c :: l) =
      match splitTriple l with
      | hd :: t => (c :: hd) :: t
      | [] => [[c]] := by
  rw [splitTriple.eq_def]
  split
  · rename_i x heq
    have : startsTriple (c :: l) = true := by
      rw [startsTriple_iff]
      exact ⟨x, heq⟩
    rw [this] at h
    cases h
  · rename_i c' l' hne heq
    injection heq with h1 h2
    subst h1
    subst h2
    rfl
  · rename_i heq
    exact absurd heq (by simp)

theorem splitTriple_ne_nil : ∀ l, splitTriple l ≠ [] := by
  intro l
  induction l using splitTriple.induct <;> simp_all [splitTriple]

theorem startsTriple_false_of_head_ne (c : Char) (l : List Char)
    (h : c ≠ '"') : startsTriple (c :: l) = false :=
  startsTriple_false_of_ne c l (by
    intro x hh
    simp only [List.cons.injEq] at hh
    exact h hh.1)

/-- A quote-free string on the left does not affect delimiter presence. -/
theorem containsTriple_noquote_append (x y : List Char)
    (h : ∀ c ∈ x, c ≠ '"') :
    containsTriple (x ++ y) = containsTriple y := by
  induction x with
  | nil => rfl
  | cons c xs ih =>
    rw [List.cons_append, containsTriple_cons,
      startsTriple_false_of_head_ne c _ (h c (by simp)),
      ih (fun d hd => h d (by simp [hd]))]
    simp

theorem containsTriple_false_of_noquote (y : List Char)
    (h : ∀ c ∈ y, c ≠ '"') : containsTriple y = false := by
  have := containsTriple_noquote_append y [] h
  simpa using this

theorem startsTriple_append_noquote (l y : List Char)
    (h : ∀ c ∈ y, c ≠ '"') :
    startsTriple (l ++ y) = startsTriple l := by
  cases hL : startsTriple l with
  | true =>
    rcases (startsTriple_iff l).mp hL with ⟨t, rfl⟩
    rfl
  | false =>
    cases hLY : startsTriple (l ++ y) with
    | false => rfl
    | true =>
      exfalso
      rcases (startsTriple_iff _).mp hLY with ⟨t, ht⟩
      rcases l with _ | ⟨a, _ | ⟨b, _ | ⟨d, rest⟩⟩⟩
      · simp only [List.nil_append] at ht
        exact h '"' (by rw [ht]; simp) rfl
      · simp only [List.cons_append, List.nil_append, List.cons.injEq] at ht
        exact h '"' (by rw [ht.2]; simp) rfl
      · simp only [List.cons_append, List.nil_append, List.cons.injEq] at ht
        exact h '"' (by rw [ht.2.2]; simp) rfl
      · simp only [List.cons_append, List.cons.injEq] at ht
        have hs : startsTriple (a :: b :: d :: rest) = true := by
          rw [ht.1, ht.2.1, ht.2.2.1]
          rfl
        rw [hs] at hL
        cases hL

theorem containsTriple_nil_eq : containsTriple [] = false := rfl

theorem containsTriple_one (a : Char) : containsTriple [a] = false := by
  rw [containsTriple_cons]
  rw [startsTriple_false_of_ne a [] (by intro x hh; simp at hh)]
  rfl

theorem containsTriple_two (a b : Char) : containsTriple [a, b] = false := by
  rw [containsTriple_cons]
  rw [startsTriple_false_of_ne a [b] (by intro x hh; simp at hh)]
  simp [containsTriple_one]

theorem containsTriple_append_right (x y : List Char)
    (h : containsTriple y = true) : containsTriple (x ++ y) = true := by
  induction x with
  | nil => simpa using h
  | cons c xs ih =>
    rw [List.cons_append, containsTriple_cons, ih]
    simp

/-- A delimiter occurrence in an appended string lies inside the left
part extended by at most two right characters, or inside the right
part. -/
theorem containsTriple_append_split (x y : List Char)
    (h : containsTriple (x ++ y) = true) :
    containsTriple (x ++ y.take 2) = true ∨ containsTriple y = true := by
  induction x with
  | nil => exact Or.inr (by simpa using h)
  | cons c xs ih =>
    rw [List.cons_append, containsTriple_cons] at h
    rcases Bool.or_eq_true_iff.mp h with hs | hc
    · rcases (startsTriple_iff _).mp hs with ⟨t, ht⟩
      left
      rcases xs with _ | ⟨a, _ | ⟨b, rest⟩⟩
      · simp only [List.nil_append, List.cons.injEq] at ht
        have hy : y.take 2 = '"' :: ('"' :: t).take 1 := by rw [ht.2]; rfl
        rw [ht.1, hy]
        rw [List.cons_append, containsTriple_cons]
        have : startsTriple ('"' :: ([] ++ '"' :: ('"' :: t).take 1)) = true := by
          rw [startsTriple_iff]
          cases t <;> exact ⟨_, rfl⟩
        rw [this]
        simp
      · simp only [List.cons_append, List.nil_append, List.cons.injEq] at ht
        have hy : y.take 2 = '"' :: t.take 1 := by rw [ht.2.2]; rfl
        rw [ht.1, ht.2.1, hy]
        rfl
      · simp only [List.cons_append, List.cons.injEq] at ht
        rw [List.cons_append, containsTriple_cons]
        have : startsTriple (c :: (a :: b :: rest ++ y.take 2)) = true := by
          rw [startsTriple_iff]
          rw [ht.1, ht.2.1, ht.2.2.1]
          exact ⟨_, rfl⟩
        rw [this]
        simp
    · rcases ih hc with h1 | h1
      · left
        rw [List.cons_append, containsTriple_cons, h1]
        simp
      · exact Or.inr h1

/-- A delimiter occurrence created by appending two quotes means the left
part already contained one or ended with a quote. -/
theorem containsTriple_append_quotes (x : List Char)
    (h : containsTriple (x ++ ['"', '"']) = true) :
    containsTriple x = true ∨ x.getLast? = some '"' := by
  induction x with
  | nil => exact absurd h (by simp [containsTriple_two])
  | cons c xs ih =>
    rw [List.cons_append, containsTriple_cons] at h
    rcases Bool.or_eq_true_iff.mp h with hs | hc
    · rcases (startsTriple_iff _).mp hs with ⟨t, ht⟩
      rcases xs with _ | ⟨a, _ | ⟨b, rest⟩⟩
      · simp only [List.nil_append, List.cons.injEq] at ht
        right
        rw [ht.1]
        rfl
      · simp only [List.cons_append, List.nil_append, List.cons.injEq] at ht
        right
        rw [ht.2.1]
        rfl
      · simp only [List.cons_append, List.cons.injEq] at ht
        left
        rw [containsTriple_cons]
        have : startsTriple (c :: a :: b :: rest) = true := by
          rw [startsTriple_iff]
          rw [ht.1, ht.2.1, ht.2.2.1]
          exact ⟨_, rfl⟩
        rw [this]
        simp
    · rcases ih hc with h1 | h1
      · left
        rw [containsTriple_cons, h1]
        simp
      · right
        rcases xs with _ | ⟨b, xs2⟩
        · simp at h1
        · rw [List.getLast?_cons_cons]
          exact h1

/-- Splitting a string that opens with a clean head followed by the
delimiter: the head becomes part 0 and splitting continues after the
delimiter. -/
theorem splitTriple_clean_head : ∀ (H t : List Char),
    containsTriple (H ++ ['"', '"']) = false →
    splitTriple (H ++ '"' :: '"' :: '"' :: t) = H :: splitTriple t := by
  intro H
  induction H with
  | nil => intro t _; rfl
  | cons c H' ih =>
    intro t h
    rw [List.cons_append, containsTriple_cons] at h
    rw [Bool.or_eq_false_iff] at h
    obtain ⟨hs, hc⟩ := h
    have hsp : startsTriple (c :: (H' ++ '"' :: '"' :: '"' :: t)) = false := by
      cases hx : startsTriple (c :: (H' ++ '"' :: '"' :: '"' :: t)) with
      | false => rfl
      | true =>
        exfalso
        rcases (startsTriple_iff _).mp hx with ⟨u, hu⟩
        rcases H' with _ | ⟨a, _ | ⟨b, rest⟩⟩
        · simp only [List.nil_append, List.cons.injEq] at hu
          simp only [List.nil_append] at hs
          have hqq : startsTriple (c :: ['"', '"']) = true := by
            rw [startsTriple_iff]
            exact ⟨[], by rw [hu.1]⟩
          rw [hqq] at hs
          cases hs
        · simp only [List.cons_append, List.nil_append, List.cons.injEq] at hu
          simp only [List.cons_append, List.nil_append] at hs
          have hqq : startsTriple (c :: a :: ['"', '"']) = true := by
            rw [startsTriple_iff]
            refine ⟨['"'], ?_⟩
            rw [hu.1, hu.2.1]
          rw [hqq] at hs
          cases hs
        · simp only [List.cons_append, List.cons.injEq] at hu
          have hqq : startsTriple (c :: (a :: b :: rest ++ ['"', '"'])) = true := by
            rw [startsTriple_iff]
            rw [hu.1, hu.2.1, hu.2.2.1]
            exact ⟨_, rfl⟩
          rw [hqq] at hs
          cases hs
    rw [List.cons_append, splitTriple_cons_not c _ hsp, ih t hc]

/-- The first part of a split at an eventually occurring delimiter is a
prefix of the text before the delimiter position. -/
theorem splitTriple_head_pre : ∀ (x t : List Char),
    startsTriple t = true →
    ∃ h rest, splitTriple (x ++ t) = h :: rest ∧ h <+: x := by
  intro x
  induction x with
  | nil =>
    intro t ht
    rcases (startsTriple_iff t).mp ht with ⟨u, rfl⟩
    exact ⟨[], splitTriple u, rfl, List.nil_prefix⟩
  | cons c xs ih =>
    intro t ht
    cases hs : startsTriple (c :: (xs ++ t)) with
    | true =>
      rcases (startsTriple_iff _).mp hs with ⟨u, hu⟩
      refine ⟨[], splitTriple u, ?_, List.nil_prefix⟩
      rw [List.cons_append, hu]
      rfl
    | false =>
      rcases ih t ht with ⟨h, rest, heq, hpre⟩
      refine ⟨c :: h, rest, ?_, List.cons_prefix_cons.mpr ⟨rfl, hpre⟩⟩
      rw [List.cons_append, splitTriple_cons_not c _ hs, heq]

theorem containsTriple_append_noquote_right (x y : List Char)
    (h : ∀ c ∈ y, c ≠ '"') :
    containsTriple (x ++ y) = containsTriple x := by
  induction x with
  | nil =>
    simpa using containsTriple_false_of_noquote y h
  | cons c xs ih =>
    have hst := startsTriple_append_noquote (c :: xs) y h
    rw [List.cons_append] at hst
    rw [List.cons_append, containsTriple_cons, hst, ih,
      ← containsTriple_cons]

/-! ## The shape of the split prompt -/

theorem prompt_seam (lang : List Char) (h : containsTriple lang = false) :
    containsTriple ((promptPartA ++ lang ++ promptPartB) ++ ['"', '"']) =
      false := by
  have h1 : (promptPartA ++ lang ++ promptPartB) ++ ['"', '"'] =
      promptPartA ++ (lang ++ (promptPartB ++ ['"', '"'])) := by
    simp [List.append_assoc]
  rw [h1, containsTriple_noquote_append promptPartA _ (by decide)]
  cases hx : containsTriple (lang ++ (promptPartB ++ ['"', '"'])) with
  | false => rfl
  | true =>
    exfalso
    rcases containsTriple_append_split lang _ hx with h2 | h2
    · have htake : (promptPartB ++ ['"', '"']).take 2 = [' ', 'c'] := by decide
      rw [htake,
        containsTriple_append_noquote_right lang [' ', 'c'] (by decide),
        h] at h2
      cases h2
    · rw [containsTriple_noquote_append promptPartB _ (by decide),
        containsTriple_two] at h2
      cases h2

theorem build_prompt_assoc (code lang : List Char) :
    build_prompt code lang =
      (promptPartA ++ lang ++ promptPartB) ++
        '"' :: '"' :: '"' :: (code ++ '"' :: '"' :: '"' :: ['\n']) := by
  simp [build_prompt, tripleQuote, List.append_assoc]

theorem containsTriple_build_prompt (code lang : List Char) :
    containsTriple (build_prompt code lang) = true := by
  rw [build_prompt_assoc]
  exact containsTriple_append_right _ _ rfl

theorem splitTriple_build_prompt (code lang : List Char)
    (h : containsTriple lang = false) :
    splitTriple (build_prompt code lang) =
      (promptPartA ++ lang ++ promptPartB) ::
        splitTriple (code ++ '"' :: '"' :: '"' :: ['\n']) := by
  rw [build_prompt_assoc]
  exact splitTriple_clean_head _ _ (prompt_seam lang h)

/-- With a delimiter-free language and a code that neither contains the
delimiter nor ends in a double quote, the heuristic recovers the code
exactly. -/
theorem extract_code_build_prompt (code lang : List Char)
    (hcode : containsTriple code = false)
    (hlast : code.getLast? ≠ some '"')
    (hlang : containsTriple lang = false) :
    extract_code (build_prompt code lang) = code := by
  have hseam2 : containsTriple (code ++ ['"', '"']) = false := by
    cases hx : containsTriple (code ++ ['"', '"']) with
    | false => rfl
    | true =>
      rcases containsTriple_append_quotes code hx with h1 | h1
      · rw [h1] at hcode
        cases hcode
      · exact absurd h1 hlast
  have hsplit : splitTriple (code ++ '"' :: '"' :: '"' :: ['\n']) =
      code :: [['\n']] := splitTriple_clean_head code ['\n'] hseam2
  unfold extract_code
  rw [containsTriple_build_prompt, if_pos rfl,
    splitTriple_build_prompt code lang hlang, hsplit]

/-- With only the language assumed delimiter-free, the heuristic extracts
some prefix of the code. -/
theorem extract_code_pre (code lang : List Char)
    (hlang : containsTriple lang = false) :
    extract_code (build_prompt code lang) <+: code := by
  rcases splitTriple_head_pre code ('"' :: '"' :: '"' :: ['\n']) rfl with
    ⟨h, rest, heq, hpre⟩
  unfold extract_code
  rw [containsTriple_build_prompt, if_pos rfl,
    splitTriple_build_prompt code lang hlang, heq]
  exact hpre

/-! ## Claim C9: round trip between prompt builder and code extraction -/

/-- Claim C9 is refuted as stated: for the code consisting of the letter
x followed by one double quote (which contains no triple-quote
delimiter), the delimiter scan absorbs the trailing quote and the
extraction returns only the letter x, not the original code. -/
theorem C9_roundtrip_counterexample :
    extract_code (build_prompt ['x', '"'] "python".data) ≠ ['x', '"'] ∧
    extract_code (build_prompt ['x', '"'] "python".data) = ['x'] := by
  constructor
  · decide
  · decide

/-- Claim C9, amended: the extraction of the local heuristic returns the
original code exactly for every code and declared language such that the
language does not contain the triple-quote delimiter and the code neither
contains the delimiter nor ends with a double-quote character. -/
theorem C9_roundtrip_amended (code lang : List Char)
    (hcode : containsTriple code = false)
    (hlast : code.getLast? ≠ some '"')
    (hlang : containsTriple lang = false) :
    extract_code (build_prompt code lang) = code :=
  extract_code_build_prompt code lang hcode hlast hlang

/-- Witness for the amended C9 at a concrete code and language. -/
theorem C9_roundtrip_amended_witness :
    extract_code (build_prompt "y = a / b".data "python".data) =
      "y = a / b".data :=
  C9_roundtrip_amended "y = a / b".data "python".data (by decide) (by decide)
    (by decide)

/-! ## Substring monotonicity and lines of a prefix -/

theorem containsSub_append_left (pat u v : List Char)
    (h : containsSub pat u = true) : containsSub pat (u ++ v) = true := by
  induction u with
  | nil =>
    have hp : pat = [] := by
      cases pat with
      | nil => rfl
      | cons p ps => simp [containsSub] at h
    subst hp
    cases v with
    | nil => rfl
    | cons c cs => simp [containsSub]
  | cons c us ih =>
    simp only [containsSub, Bool.or_eq_true] at h
    rcases h with h | h
    · have h1 : pat <+: c :: us := List.isPrefixOf_iff_prefix.mp h
      have h2 : pat <+: (c :: us) ++ v := h1.trans (List.prefix_append _ _)
      rw [List.cons_append] at h2
      simp only [List.cons_append, containsSub, Bool.or_eq_true]
      exact Or.inl (List.isPrefixOf_iff_prefix.mpr h2)
    · simp only [List.cons_append, containsSub, Bool.or_eq_true]
      exact Or.inr (ih h)

theorem lineMatches_mono (l' l : List Char) (h : l' <+: l)
    (hm : lineMatches l' = true) : lineMatches l = true := by
  obtain ⟨t, rfl⟩ := h
  unfold lineMatches at hm ⊢
  rcases Bool.or_eq_true_iff.mp hm with h1 | h1
  · rw [containsSub_append_left _ _ _ h1]
    simp
  · rw [List.filter_append]
    rw [containsSub_append_left _ _ _ h1]
    simp

theorem pySplitlinesAux_nil (acc : List Char) :
    pySplitlinesAux [] acc = if acc.isEmpty then [] else [acc.reverse] := rfl

theorem pySplitlinesAux_one (c : Char) (acc : List Char) :
    pySplitlinesAux [c] acc =
      if isLineBreak c then acc.reverse :: pySplitlinesAux [] []
      else pySplitlinesAux [] (c :: acc) := rfl

theorem pySplitlinesAux_two (c d : Char) (rest acc : List Char) :
    pySplitlinesAux (c :: d :: rest) acc =
      if c = '\r' && d = '\n' then acc.reverse :: pySplitlinesAux rest []
      else if isLineBreak c then acc.reverse :: pySplitlinesAux (d :: rest) []
      else pySplitlinesAux (d :: rest) (c :: acc) := rfl

theorem pySplitlinesAux_first : ∀ (t acc : List Char), acc ≠ [] →
    ∃ r rest2, pySplitlinesAux t acc = (acc.reverse ++ r) :: rest2 := by
  intro t acc
  induction t, acc using pySplitlinesAux.induct with
  | case1 acc hacc =>
    intro hne
    exact absurd (List.isEmpty_iff.mp hacc) hne
  | case2 acc hacc =>
    intro _
    refine ⟨[], [], ?_⟩
    rw [pySplitlinesAux_nil, if_neg hacc]
    simp
  | case3 c acc hbr _ =>
    intro _
    refine ⟨[], pySplitlinesAux [] [], ?_⟩
    rw [pySplitlinesAux_one, if_pos hbr]
    simp
  | case4 c acc hbr _ =>
    intro _
    refine ⟨[c], [], ?_⟩
    rw [pySplitlinesAux_one, if_neg hbr, pySplitlinesAux_nil,
      if_neg (by simp)]
    simp
  | case5 c d rest acc hcr _ =>
    intro _
    refine ⟨[], pySplitlinesAux rest [], ?_⟩
    rw [pySplitlinesAux_two, if_pos hcr]
    simp
  | case6 c d rest acc hcr hbr _ =>
    intro _
    refine ⟨[], pySplitlinesAux (d :: rest) [], ?_⟩
    rw [pySplitlinesAux_two, if_neg hcr, if_pos hbr]
    simp
  | case7 c d rest acc hcr hbr ih =>
    intro _
    obtain ⟨r, rest2, h⟩ := ih (by simp)
    refine ⟨c :: r, rest2, ?_⟩
    rw [pySplitlinesAux_two, if_neg hcr, if_neg hbr, h,
      List.reverse_cons, List.append_assoc]
    rfl

/-- Every line of a prefix of a string extends, as a prefix, to a line of
the full string. -/
theorem pySplitlinesAux_pre : ∀ (u acc t l' : List Char),
    l' ∈ pySplitlinesAux u acc →
    ∃ l ∈ pySplitlinesAux (u ++ t) acc, l' <+: l := by
  intro u acc
  induction u, acc using pySplitlinesAux.induct with
  | case1 acc hacc =>
    intro t l' hl'
    rw [pySplitlinesAux_nil, if_pos hacc] at hl'
    simp at hl'
  | case2 acc hacc =>
    intro t l' hl'
    rw [pySplitlinesAux_nil, if_neg hacc] at hl'
    simp only [List.mem_singleton] at hl'
    subst hl'
    obtain ⟨r, rest2, h⟩ :=
      pySplitlinesAux_first t acc (by simpa using hacc)
    rw [List.nil_append, h]
    exact ⟨acc.reverse ++ r, by simp, List.prefix_append _ _⟩
  | case3 c acc hbr _ =>
    intro t l' hl'
    rw [pySplitlinesAux_one, if_pos hbr,
      show pySplitlinesAux [] ([] : List Char) = [] from rfl] at hl'
    simp only [List.mem_singleton, List.mem_cons, List.not_mem_nil,
      or_false] at hl'
    subst hl'
    cases t with
    | nil =>
      rw [List.append_nil, pySplitlinesAux_one, if_pos hbr]
      exact ⟨acc.reverse, by simp, List.prefix_refl _⟩
    | cons e t2 =>
      rw [List.cons_append, List.nil_append, pySplitlinesAux_two]
      by_cases hce : (c = '\r' && e = '\n') = true
      · rw [if_pos hce]
        exact ⟨acc.reverse, by simp, List.prefix_refl _⟩
      · rw [if_neg hce, if_pos hbr]
        exact ⟨acc.reverse, by simp, List.prefix_refl _⟩
  | case4 c acc hbr _ =>
    intro t l' hl'
    rw [pySplitlinesAux_one, if_neg hbr, pySplitlinesAux_nil,
      if_neg (by simp)] at hl'
    simp only [List.mem_singleton] at hl'
    subst hl'
    cases t with
    | nil =>
      rw [List.append_nil, pySplitlinesAux_one, if_neg hbr,
        pySplitlinesAux_nil, if_neg (by simp)]
      exact ⟨(c :: acc).reverse, by simp, List.prefix_refl _⟩
    | cons e t2 =>
      rw [List.cons_append, List.nil_append, pySplitlinesAux_two]
      have hc : ¬(c = '\r' && e = '\n') = true := by
        intro hh
        rw [Bool.and_eq_true] at hh
        have : isLineBreak c = true := by
          simp [isLineBreak, of_decide_eq_true hh.1]
        exact hbr this
      rw [if_neg hc, if_neg hbr]
      obtain ⟨r, rest2, h⟩ :=
        pySplitlinesAux_first (e :: t2) (c :: acc) (by simp)
      rw [h]
      exact ⟨(c :: acc).reverse ++ r, by simp, List.prefix_append _ _⟩
  | case5 c d rest acc hcr ih =>
    intro t l' hl'
    rw [pySplitlinesAux_two, if_pos hcr] at hl'
    rw [List.cons_append, List.cons_append, pySplitlinesAux_two, if_pos hcr]
    rcases List.mem_cons.mp hl' with h | h
    · exact ⟨acc.reverse, by simp, by rw [h]⟩
    · obtain ⟨l, hl, hpre⟩ := ih t l' h
      exact ⟨l, by simp [hl], hpre⟩
  | case6 c d rest acc hcr hbr ih =>
    intro t l' hl'
    rw [pySplitlinesAux_two, if_neg hcr, if_pos hbr] at hl'
    rw [List.cons_append, List.cons_append, pySplitlinesAux_two,
      if_neg hcr, if_pos hbr]
    rcases List.mem_cons.mp hl' with h | h
    · exact ⟨acc.reverse, by simp, by rw [h]⟩
    · obtain ⟨l, hl, hpre⟩ := ih t l' h
      rw [List.cons_append] at hl
      exact ⟨l, by simp [hl], hpre⟩
  | case7 c d rest acc hcr hbr ih =>
    intro t l' hl'
    rw [pySplitlinesAux_two, if_neg hcr, if_neg hbr] at hl'
    rw [List.cons_append, List.cons_append, pySplitlinesAux_two,
      if_neg hcr, if_neg hbr]
    obtain ⟨l, hl, hpre⟩ := ih t l' hl'
    rw [List.cons_append] at hl
    exact ⟨l, hl, hpre⟩

/-- The lines of a prefix extend to lines of the full string. -/
theorem pySplitlines_pre (s' s : List Char) (h : s' <+: s) :
    ∀ l' ∈ pySplitlines s', ∃ l ∈ pySplitlines s, l' <+: l := by
  obtain ⟨t, rfl⟩ := h
  intro l' hl'
  exact pySplitlinesAux_pre s' [] t l' hl'

/-! ## Claim C4: pattern-free code yields no issues -/

theorem enumFrom_mem_snd {α : Type} : ∀ (s : Nat) (xs : List α)
    (p : Nat × α), p ∈ enumFrom s xs → p.2 ∈ xs := by
  intro s xs
  induction xs generalizing s with
  | nil => intro p hp; simp [enumFrom] at hp
  | cons x xs ih =>
    intro p hp
    simp only [enumFrom, List.mem_cons] at hp
    rcases hp with h | h
    · subst h; simp
    · exact List.mem_cons_of_mem _ (ih (s + 1) p h)

theorem simScan_no_match : ∀ (l : List (Nat × List Char)),
    (∀ p ∈ l, lineMatches p.2 = false) →
    simScan l = (.nil, .nil, .nil) := by
  intro l h
  induction l with
  | nil => rfl
  | cons q rest ih =>
    obtain ⟨idx, line⟩ := q
    have h1 : lineMatches line = false := h (idx, line) (by simp)
    simp only [simScan, h1, Bool.false_eq_true, if_false]
    exact ih (fun p hp => h p (by simp [hp]))

theorem simJO_no_match (p : List Char)
    (hscan : simScan (enumFrom 1 (pySplitlines (extract_code p))) =
      (.nil, .nil, .nil)) :
    simJO p =
      .cons "summary".data (.str (summaryBase ++ summaryNoIssues))
        (.cons "issues".data (.arr .nil)
          (.cons "suggestions".data (.arr .nil)
            (.cons "automatic_fixes".data (.arr .nil)
              (.cons "effort_estimate".data (.str "5-15 minutes".data)
                (.cons "docs_updates".data
                  (.arr (.cons
                    (.str "Add README section describing usage.".data) .nil))
                  (.cons "metadata".data
                    (.obj (.cons "language".data (.str "python".data)
                      (.cons "analysis_time".data (.str "simulated".data)
                        .nil)))
                    .nil)))))) := by
  simp only [simJO]
  rw [hscan]
  rfl

/-- Claim C4: for every code input with no line matching the
division-by-zero pattern, the heuristic result has an empty issues
sequence and a summary that ends with the no-issues sentence.  The
declared language is only assumed not to contain the triple-quote
delimiter (the default "python" qualifies). -/
theorem C4_no_match_no_issues (code lang : List Char)
    (hlang : containsTriple lang = false)
    (h : ∀ line ∈ pySplitlines code, lineMatches line = false) :
    joLookup (simJO (build_prompt code lang)) "issues".data =
      some (.arr .nil) ∧
    joLookup (simJO (build_prompt code lang)) "summary".data =
      some (.str (summaryBase ++ summaryNoIssues)) ∧
    summaryNoIssues <:+ summaryBase ++ summaryNoIssues := by
  have hpre := extract_code_pre code lang hlang
  have hext : ∀ line ∈
      pySplitlines (extract_code (build_prompt code lang)),
      lineMatches line = false := by
    intro l' hl'
    obtain ⟨l, hl, hp⟩ := pySplitlines_pre _ code hpre l' hl'
    cases hx : lineMatches l' with
    | false => rfl
    | true => exact absurd (lineMatches_mono l' l hp hx) (by simp [h l hl])
  have hscan := simScan_no_match
    (enumFrom 1 (pySplitlines (extract_code (build_prompt code lang))))
    (fun p hp => hext p.2 (enumFrom_mem_snd 1 _ p hp))
  rw [simJO_no_match _ hscan]
  exact ⟨rfl, rfl, ⟨summaryBase, rfl⟩⟩

/-- Witness for C4 at a concrete two-line program without the pattern. -/
theorem C4_no_match_no_issues_witness :
    joLookup (simJO (build_prompt "y = 1\nprint(y)".data "python".data))
        "issues".data = some (.arr .nil) ∧
    joLookup (simJO (build_prompt "y = 1\nprint(y)".data "python".data))
        "summary".data =
      some (.str (summaryBase ++ summaryNoIssues)) ∧
    summaryNoIssues <:+ summaryBase ++ summaryNoIssues :=
  C4_no_match_no_issues "y = 1\nprint(y)".data "python".data (by decide)
    (by decide)

/-! ## Claim C3: exactly one matching line yields exactly one issue -/

theorem enumFrom_append {α : Type} : ∀ (xs ys : List α) (s : Nat),
    enumFrom s (xs ++ ys) = enumFrom s xs ++ enumFrom (s + xs.length) ys := by
  intro xs
  induction xs with
  | nil => intro ys s; simp [enumFrom]
  | cons x xs ih =>
    intro ys s
    have h2 : s + 1 + xs.length = s + (x :: xs).length := by
      simp
      omega
    calc enumFrom s ((x :: xs) ++ ys)
        = (s, x) :: enumFrom (s + 1) (xs ++ ys) := rfl
      _ = (s, x) ::
            (enumFrom (s + 1) xs ++ enumFrom (s + 1 + xs.length) ys) := by
          rw [ih ys (s + 1)]
      _ = enumFrom s (x :: xs) ++ enumFrom (s + (x :: xs).length) ys := by
          rw [h2]
          rfl

theorem simScan_single : ∀ (l1 : List (Nat × List Char)) (k : Nat)
    (line : List Char) (l2 : List (Nat × List Char)),
    (∀ p ∈ l1, lineMatches p.2 = false) → lineMatches line = true →
    (∀ p ∈ l2, lineMatches p.2 = false) →
    simScan (l1 ++ (k, line) :: l2) =
      (.cons (issueJ k) .nil, .cons (.str suggestionStr) .nil,
       .cons fixJ .nil) := by
  intro l1
  induction l1 with
  | nil =>
    intro k line l2 _ hline hpost
    simp only [List.nil_append, simScan, simScan_no_match l2 hpost, hline,
      if_true]
  | cons q l1' ih =>
    intro k line l2 hpre hline hpost
    obtain ⟨idx, qline⟩ := q
    have h1 : lineMatches qline = false := hpre (idx, qline) (by simp)
    simp only [List.cons_append, simScan, h1, Bool.false_eq_true, if_false]
    exact ih k line l2 (fun p hp => hpre p (by simp [hp])) hline hpost

theorem simJO_single (p : List Char) (k : Nat)
    (hscan : simScan (enumFrom 1 (pySplitlines (extract_code p))) =
      (.cons (issueJ k) .nil, .cons (.str suggestionStr) .nil,
       .cons fixJ .nil)) :
    simJO p =
      .cons "summary".data (.str summaryBase)
        (.cons "issues".data (.arr (.cons (issueJ k) .nil))
          (.cons "suggestions".data
            (.arr (.cons (.str suggestionStr) .nil))
            (.cons "automatic_fixes".data (.arr (.cons fixJ .nil))
              (.cons "effort_estimate".data (.str "5-15 minutes".data)
                (.cons "docs_updates".data
                  (.arr (.cons
                    (.str "Add README section describing usage.".data) .nil))
                  (.cons "metadata".data
                    (.obj (.cons "language".data (.str "python".data)
                      (.cons "analysis_time".data (.str "simulated".data)
                        .nil)))
                    .nil)))))) := by
  simp only [simJO]
  rw [hscan]
  rfl

/-- Claim C3 is refuted as stated: the code consisting of a
triple-quote line followed by the line a / 0 has exactly one line
matching the division pattern (its second line), yet the heuristic
produces no issue at all, because the embedded triple quote derails the
delimiter split and the scanned text is empty. -/
theorem C3_single_issue_counterexample :
    (pySplitlines "\"\"\"\na / 0".data =
        ["\"\"\"".data, "a / 0".data] ∧
      lineMatches "\"\"\"".data = false ∧
      lineMatches "a / 0".data = true) ∧
    joLookup (simJO (build_prompt "\"\"\"\na / 0".data "python".data))
      "issues".data = some (.arr .nil) := by
  constructor
  · decide
  · decide

/-- Claim C3, amended: for a code that neither contains the triple-quote
delimiter nor ends with a double quote, and a delimiter-free declared
language, if exactly one line of the code matches the division-by-zero
pattern then the heuristic produces exactly one Issue, whose line field
is the 1-based number of that line and whose severity is high. -/
theorem C3_single_issue_amended (code lang line : List Char)
    (pre post : List (List Char))
    (hcode : containsTriple code = false)
    (hlast : code.getLast? ≠ some '"')
    (hlang : containsTriple lang = false)
    (hsplit : pySplitlines code = pre ++ line :: post)
    (hpre : ∀ l ∈ pre, lineMatches l = false)
    (hline : lineMatches line = true)
    (hpost : ∀ l ∈ post, lineMatches l = false) :
    joLookup (simJO (build_prompt code lang)) "issues".data =
      some (.arr (.cons (issueJ (pre.length + 1)) .nil)) ∧
    ∃ o, issueJ (pre.length + 1) = .obj o ∧
      joLookup o "line".data = some (.num (pre.length + 1)) ∧
      joLookup o "severity".data = some (.str "high".data) := by
  have hext := extract_code_build_prompt code lang hcode hlast hlang
  have hcomm : 1 + pre.length = pre.length + 1 := by omega
  have henum : enumFrom 1 (pySplitlines code) =
      enumFrom 1 pre ++ (pre.length + 1, line) ::
        enumFrom (pre.length + 1 + 1) post := by
    rw [hsplit, enumFrom_append, hcomm]
    rfl
  have hscan : simScan (enumFrom 1
      (pySplitlines (extract_code (build_prompt code lang)))) =
      (.cons (issueJ (pre.length + 1)) .nil,
       .cons (.str suggestionStr) .nil, .cons fixJ .nil) := by
    rw [hext, henum]
    exact simScan_single _ (pre.length + 1) line _
      (fun p hp => hpre p.2 (enumFrom_mem_snd _ _ p hp)) hline
      (fun p hp => hpost p.2 (enumFrom_mem_snd _ _ p hp))
  rw [simJO_single _ _ hscan]
  exact ⟨rfl, _, rfl, rfl, rfl⟩

/-- Witness for the amended C3 at a two-line code whose second line
divides by zero. -/
theorem C3_single_issue_amended_witness :
    joLookup (simJO (build_prompt "x = 1\ny = x / 0".data "python".data))
        "issues".data =
      some (.arr (.cons (issueJ (["x = 1".data].length + 1)) .nil)) ∧
    ∃ o, issueJ (["x = 1".data].length + 1) = .obj o ∧
      joLookup o "line".data = some (.num (["x = 1".data].length + 1)) ∧
      joLookup o "severity".data = some (.str "high".data) :=
  C3_single_issue_amended "x = 1\ny = x / 0".data "python".data
    "y = x / 0".data ["x = 1".data] [] (by decide) (by decide) (by decide)
    (by decide) (by decide) (by decide) (by decide)

/-! ## Claim C7: the formatter on well-formed analysis results

The data model of the specification: an AnalysisResult with its
enumerated severities and its line references (integer or the string
unknown).  These definitions render the specification side of the claim;
the dict each value denotes is spelled out by toJO. -/

/-- Line reference of an Issue: an integer or the string unknown. -/
inductive LineRef where
  | num (n : Int)
  | unknown
  deriving DecidableEq

/-- Severity enumeration of an Issue. -/
inductive Severity where
  | low
  | medium
  | high
  deriving DecidableEq

/-- An Issue of the data model. -/
structure IssueR where
  line : LineRef
  severity : Severity
  title : List Char
  description : List Char
  deriving DecidableEq

/-- A Fix of the data model. -/
structure FixR where
  description : List Char
  patch : List Char
  deriving DecidableEq

/-- An AnalysisResult of the data model. -/
structure AnalysisResult where
  summary : List Char
  issues : List IssueR
  suggestions : List (List Char)
  automatic_fixes : List FixR
  effort_estimate : Option (List Char)
  docs_updates : List (List Char)
  metadata : List (List Char × List Char)
  deriving DecidableEq

def LineRef.toJ : LineRef → JVal
  | .num n => .num n
  | .unknown => .str "unknown".data

def Severity.toStr : Severity → List Char
  | .low => "low".data
  | .medium => "medium".data
  | .high => "high".data

def IssueR.toJ (i : IssueR) : JVal :=
  .obj (.cons "line".data i.line.toJ
    (.cons "severity".data (.str i.severity.toStr)
      (.cons "title".data (.str i.title)
        (.cons "description".data (.str i.description) .nil))))

def FixR.toJ (f : FixR) : JVal :=
  .obj (.cons "description".data (.str f.description)
    (.cons "patch".data (.str f.patch) .nil))

/-- A JSON array from a Lean list. -/
def jaOfList : List JVal → JA
  | [] => .nil
  | v :: r => .cons v (jaOfList r)

/-- A JSON object from string-valued pairs. -/
def joOfPairs : List (List Char × List Char) → JO
  | [] => .nil
  | (k, v) :: r => .cons k (.str v) (joOfPairs r)

/-- The dict denoted by an AnalysisResult. -/
def AnalysisResult.toJO (r : AnalysisResult) : JO :=
  .cons "summary".data (.str r.summary)
    (.cons "issues".data (.arr (jaOfList (r.issues.map IssueR.toJ)))
      (.cons "suggestions".data
        (.arr (jaOfList (r.suggestions.map JVal.str)))
        (.cons "automatic_fixes".data
          (.arr (jaOfList (r.automatic_fixes.map FixR.toJ)))
          (.cons "effort_estimate".data
            (match r.effort_estimate with
              | some e => .str e
              | none => .null)
            (.cons "docs_updates".data
              (.arr (jaOfList (r.docs_updates.map JVal.str)))
              (.cons "metadata".data (.obj (joOfPairs r.metadata)) .nil))))))

/-- Summary section of the formatted text. -/
def secSummary (r : AnalysisResult) : List Char :=
  hdrSummary ++ r.summary ++ "\n\n".data

/-- Rendering of a line reference inside an issue line. -/
def fmtLineRef : LineRef → List Char
  | .num n => intDumps n
  | .unknown => "unknown".data

/-- One numbered line of the Issues Found section. -/
def secIssueLine (i : Nat) (iss : IssueR) : List Char :=
  natDigits i ++ ". **".data ++ iss.title ++ "** (line ".data ++
    fmtLineRef iss.line ++ ", severity ".data ++ iss.severity.toStr ++
    "): ".data ++ iss.description ++ ['\n']

/-- Issues Found section, empty when there are no issues. -/
def secIssues (r : AnalysisResult) : List Char :=
  if r.issues.isEmpty then []
  else hdrIssues ++
    ((enumFrom 1 r.issues).map fun p => secIssueLine p.1 p.2).flatten ++ ['\n']

/-- Suggestions section. -/
def secSuggestions (r : AnalysisResult) : List Char :=
  if r.suggestions.isEmpty then []
  else hdrSuggestions ++
    (r.suggestions.map fun s => "- ".data ++ s ++ ['\n']).flatten ++ ['\n']

/-- Automatic Fixes section. -/
def secFixes (r : AnalysisResult) : List Char :=
  if r.automatic_fixes.isEmpty then []
  else hdrFixes ++
    (r.automatic_fixes.map fun f =>
      "**".data ++ f.description ++ "**\n".data ++ "```python\n".data ++
        f.patch ++ "\n```\n".data).flatten ++ ['\n']

/-- Estimated Effort section, empty when the estimate is absent or the
empty string. -/
def secEffort (r : AnalysisResult) : List Char :=
  match r.effort_estimate with
  | some e => if e.isEmpty then [] else hdrEffort ++ e ++ "\n\n".data
  | none => []

/-- Documentation Updates section. -/
def secDocs (r : AnalysisResult) : List Char :=
  if r.docs_updates.isEmpty then []
  else hdrDocs ++
    (r.docs_updates.map fun d => "- ".data ++ d ++ ['\n']).flatten ++ ['\n']

theorem jaToList_jaOfList : ∀ l : List JVal, jaToList (jaOfList l) = l := by
  intro l
  induction l with
  | nil => rfl
  | cons v r ih => simp [jaOfList, jaToList, ih]

theorem except_bind_ok {α β : Type} (a : α) (f : α → Except PyErr β) :
    (Except.ok a >>= f) = f a := rfl

theorem mapM_ok {α β γ : Type} (h : α → β) (f : β → Except PyErr γ)
    (g : α → γ) : ∀ l : List α, (∀ x ∈ l, f (h x) = .ok (g x)) →
    (l.map h).mapM f = .ok (l.map g) := by
  intro l
  induction l with
  | nil => intro _; rfl
  | cons x xs ih =>
    intro hall
    rw [List.map_cons, List.mapM_cons, hall x (by simp),
      ih (fun y hy => hall y (by simp [hy]))]
    rfl

theorem enumFrom_map {α β : Type} (f : α → β) :
    ∀ (l : List α) (s : Nat),
    enumFrom s (l.map f) = (enumFrom s l).map fun p => (p.1, f p.2) := by
  intro l
  induction l with
  | nil => intro s; rfl
  | cons x xs ih => intro s; simp [enumFrom, ih (s + 1)]

theorem fmtIssueLine_toJ (i : Nat) (iss : IssueR) :
    fmtIssueLine i iss.toJ = .ok (secIssueLine i iss) := by
  obtain ⟨line, severity, title, description⟩ := iss
  cases line <;> rfl

theorem fmtIssuesSection_toJO (r : AnalysisResult) :
    fmtIssuesSection r.toJO = .ok (secIssues r) := by
  have h1 : (joLookup r.toJO "issues".data).getD .null =
      .arr (jaOfList (r.issues.map IssueR.toJ)) := rfl
  cases h : r.issues with
  | nil =>
    unfold fmtIssuesSection secIssues
    rw [h1, h]
    rfl
  | cons i is =>
    unfold fmtIssuesSection secIssues
    rw [h1, h]
    simp only [List.map_cons]
    rw [if_pos
      (show pyTruthy (.arr (jaOfList (i.toJ :: is.map IssueR.toJ))) = true
        from rfl)]
    rw [if_neg (show ¬(i :: is).isEmpty = true by simp)]
    have h3 : pyIterate (.arr (jaOfList (i.toJ :: is.map IssueR.toJ))) =
        .ok (i.toJ :: is.map IssueR.toJ) := by
      show Except.ok (jaToList (jaOfList (i.toJ :: is.map IssueR.toJ))) = _
      rw [jaToList_jaOfList]
    rw [h3, except_bind_ok]
    have h4 : (i.toJ :: is.map IssueR.toJ) = (i :: is).map IssueR.toJ := rfl
    rw [h4, enumFrom_map IssueR.toJ (i :: is) 1]
    rw [mapM_ok _ _ (fun q => secIssueLine q.1 q.2) _
      (fun q _ => fmtIssueLine_toJ q.1 q.2), except_bind_ok]
    rfl

theorem fmtSuggestionsSection_toJO (r : AnalysisResult) :
    fmtSuggestionsSection r.toJO = .ok (secSuggestions r) := by
  have h1 : (joLookup r.toJO "suggestions".data).getD .null =
      .arr (jaOfList (r.suggestions.map JVal.str)) := rfl
  cases h : r.suggestions with
  | nil =>
    unfold fmtSuggestionsSection secSuggestions
    rw [h1, h]
    rfl
  | cons s ss =>
    unfold fmtSuggestionsSection secSuggestions
    rw [h1, h]
    simp only [List.map_cons]
    rw [if_pos
      (show pyTruthy (.arr (jaOfList (JVal.str s :: ss.map JVal.str))) = true
        from rfl)]
    rw [if_neg (show ¬(s :: ss).isEmpty = true by simp)]
    have h3 : pyIterate (.arr (jaOfList (JVal.str s :: ss.map JVal.str))) =
        .ok (JVal.str s :: ss.map JVal.str) := by
      show Except.ok (jaToList (jaOfList (JVal.str s :: ss.map JVal.str))) = _
      rw [jaToList_jaOfList]
    rw [h3, except_bind_ok]
    have h4 : (JVal.str s :: ss.map JVal.str) = (s :: ss).map JVal.str := rfl
    rw [h4, List.map_map]
    rfl

theorem fmtFixChunk_toJ (f : FixR) :
    fmtFixChunk f.toJ =
      .ok ("**".data ++ f.description ++ "**\n".data ++ "```python\n".data ++
        f.patch ++ "\n```\n".data) := rfl

theorem fmtFixesSection_toJO (r : AnalysisResult) :
    fmtFixesSection r.toJO = .ok (secFixes r) := by
  have h1 : (joLookup r.toJO "automatic_fixes".data).getD .null =
      .arr (jaOfList (r.automatic_fixes.map FixR.toJ)) := rfl
  cases h : r.automatic_fixes with
  | nil =>
    unfold fmtFixesSection secFixes
    rw [h1, h]
    rfl
  | cons f fs =>
    unfold fmtFixesSection secFixes
    rw [h1, h]
    simp only [List.map_cons]
    rw [if_pos
      (show pyTruthy (.arr (jaOfList (f.toJ :: fs.map FixR.toJ))) = true
        from rfl)]
    rw [if_neg (show ¬(f :: fs).isEmpty = true by simp)]
    have h3 : pyIterate (.arr (jaOfList (f.toJ :: fs.map FixR.toJ))) =
        .ok (f.toJ :: fs.map FixR.toJ) := by
      show Except.ok (jaToList (jaOfList (f.toJ :: fs.map FixR.toJ))) = _
      rw [jaToList_jaOfList]
    rw [h3, except_bind_ok]
    have h4 : (f.toJ :: fs.map FixR.toJ) = (f :: fs).map FixR.toJ := rfl
    rw [h4, mapM_ok _ _ (fun f2 =>
        "**".data ++ f2.description ++ "**\n".data ++ "```python\n".data ++
          f2.patch ++ "\n```\n".data) _
      (fun f2 _ => fmtFixChunk_toJ f2), except_bind_ok]
    rfl

theorem fmtEffortSection_toJO (r : AnalysisResult) :
    fmtEffortSection r.toJO = secEffort r := by
  have h1 : (joLookup r.toJO "effort_estimate".data).getD .null =
      (match r.effort_estimate with
        | some e => .str e
        | none => .null) := rfl
  cases h : r.effort_estimate with
  | none =>
    unfold fmtEffortSection secEffort
    rw [h1, h]
    rfl
  | some e =>
    unfold fmtEffortSection secEffort
    rw [h1, h]
    cases e with
    | nil => rfl
    | cons c cs => rfl

theorem fmtDocsSection_toJO (r : AnalysisResult) :
    fmtDocsSection r.toJO = .ok (secDocs r) := by
  have h1 : (joLookup r.toJO "docs_updates".data).getD .null =
      .arr (jaOfList (r.docs_updates.map JVal.str)) := rfl
  cases h : r.docs_updates with
  | nil =>
    unfold fmtDocsSection secDocs
    rw [h1, h]
    rfl
  | cons d ds =>
    unfold fmtDocsSection secDocs
    rw [h1, h]
    simp only [List.map_cons]
    rw [if_pos
      (show pyTruthy (.arr (jaOfList (JVal.str d :: ds.map JVal.str))) = true
        from rfl)]
    rw [if_neg (show ¬(d :: ds).isEmpty = true by simp)]
    have h3 : pyIterate (.arr (jaOfList (JVal.str d :: ds.map JVal.str))) =
        .ok (JVal.str d :: ds.map JVal.str) := by
      show Except.ok (jaToList (jaOfList (JVal.str d :: ds.map JVal.str))) = _
      rw [jaToList_jaOfList]
    rw [h3, except_bind_ok]
    have h4 : (JVal.str d :: ds.map JVal.str) = (d :: ds).map JVal.str := rfl
    rw [h4, List.map_map]
    rfl

/-- The formatter on the dict of any AnalysisResult: it succeeds and the
output is the concatenation of the six sections in their fixed order. -/
theorem format_analysis_toJO (r : AnalysisResult) :
    format_analysis r.toJO =
      .ok (secSummary r ++ secIssues r ++ secSuggestions r ++ secFixes r ++
        secEffort r ++ secDocs r) := by
  unfold format_analysis
  rw [fmtIssuesSection_toJO, except_bind_ok, fmtSuggestionsSection_toJO,
    except_bind_ok, fmtFixesSection_toJO, except_bind_ok,
    fmtDocsSection_toJO, except_bind_ok, fmtEffortSection_toJO]
  rfl

/-- Claim C7 is refuted as stated: an AnalysisResult whose four list
fields are all empty but whose effort_estimate is a non-empty text is
formatted with an Estimated Effort section besides the Summary. -/
theorem C7_sections_counterexample :
    format_analysis (AnalysisResult.toJO
        ⟨"s".data, [], [], [], some "x".data, [], []⟩) =
      .ok (hdrSummary ++ "s".data ++ "\n\n".data ++
        (hdrEffort ++ "x".data ++ "\n\n".data)) ∧
    containsSub hdrEffort (hdrSummary ++ "s".data ++ "\n\n".data ++
      (hdrEffort ++ "x".data ++ "\n\n".data)) = true ∧
    hdrSummary ++ "s".data ++ "\n\n".data ++
        (hdrEffort ++ "x".data ++ "\n\n".data) ≠
      hdrSummary ++ "s".data ++ "\n\n".data :=
  ⟨rfl, by decide, by decide⟩

/-- Claim C7, amended: formatting the dict of an AnalysisResult never
raises and produces the sections in the fixed order Summary, Issues
Found, Suggestions, Automatic Fixes, Estimated Effort, Documentation
Updates, each of the optional sections empty exactly when its underlying
list is empty (for Estimated Effort: when the estimate is absent or the
empty text); in particular, when the four lists are empty and the
effort estimate is absent or empty, the output is the Summary section
alone. -/
theorem C7_sections_amended (r : AnalysisResult) :
    format_analysis r.toJO =
      .ok (secSummary r ++ secIssues r ++ secSuggestions r ++ secFixes r ++
        secEffort r ++ secDocs r) ∧
    (r.issues = [] → r.suggestions = [] → r.automatic_fixes = [] →
      r.docs_updates = [] →
      (r.effort_estimate = none ∨ r.effort_estimate = some []) →
      format_analysis r.toJO = .ok (secSummary r)) := by
  refine ⟨format_analysis_toJO r, ?_⟩
  intro h1 h2 h3 h4 h5
  rw [format_analysis_toJO r]
  have e1 : secIssues r = [] := by unfold secIssues; rw [h1]; rfl
  have e2 : secSuggestions r = [] := by unfold secSuggestions; rw [h2]; rfl
  have e3 : secFixes r = [] := by unfold secFixes; rw [h3]; rfl
  have e4 : secDocs r = [] := by unfold secDocs; rw [h4]; rfl
  have e5 : secEffort r = [] := by
    unfold secEffort
    rcases h5 with h5 | h5
    · rw [h5]
    · rw [h5]
      rfl
  rw [e1, e2, e3, e4, e5]
  simp

/-- Witness for the amended C7 at an AnalysisResult with all optional
content empty. -/
theorem C7_sections_amended_witness :
    format_analysis (AnalysisResult.toJO
        ⟨"ok".data, [], [], [], none, [], []⟩) =
      .ok (secSummary ⟨"ok".data, [], [], [], none, [], []⟩) :=
  (C7_sections_amended ⟨"ok".data, [], [], [], none, [], []⟩).2 rfl rfl rfl
    rfl (Or.inl rfl)

/-! ## Decimal digit lemmas -/

theorem natDigitsGo_spec : ∀ (f n : Nat) (acc : List Char), n < 10 ^ (f + 1) →
    natDigitsGo (f + 1) n acc = digitsSpec n ++ acc := by
  intro f
  induction f with
  | zero =>
    intro n acc h
    have h10 : n < 10 := by simpa using h
    rw [natDigitsGo, if_pos h10, digitsSpec, dif_pos h10]
    rfl
  | succ f ih =>
    intro n acc h
    by_cases h10 : n < 10
    · rw [natDigitsGo, if_pos h10, digitsSpec, dif_pos h10]
      rfl
    · rw [natDigitsGo, if_neg h10, digitsSpec, dif_neg h10,
        ih (n / 10) _ (by
          have hlt : n < 10 ^ (f + 1) * 10 := by
            rw [← pow_succ]
            exact h
          exact (Nat.div_lt_iff_lt_mul (by omega)).mpr hlt),
        List.append_assoc]
      rfl

theorem natDigits_eq_spec (n : Nat) : natDigits n = digitsSpec n := by
  unfold natDigits
  have h : n < 10 ^ (n + 1) := by
    calc n < 10 ^ n := Nat.lt_pow_self (by omega) n
    _ ≤ 10 ^ (n + 1) := Nat.pow_le_pow_right (by omega) (by omega)
  rw [natDigitsGo_spec n n [] h, List.append_nil]

theorem digitsSpec_all_dig : ∀ n : Nat, ∀ c ∈ digitsSpec n, isDig c = true := by
  intro n
  induction n using Nat.strong_induction_on with
  | _ n ih =>
    by_cases h10 : n < 10
    · rw [digitsSpec, dif_pos h10]
      intro c hc
      simp only [List.mem_singleton] at hc
      subst hc
      interval_cases n <;> decide
    · rw [digitsSpec, dif_neg h10]
      intro c hc
      rcases List.mem_append.mp hc with h | h
      · exact ih (n / 10) (Nat.div_lt_self (by omega) (by omega)) c h
      · simp only [List.mem_singleton] at h
        subst h
        have : n % 10 < 10 := Nat.mod_lt _ (by omega)
        interval_cases hm : n % 10 <;> decide

theorem digitsSpec_ne_nil (n : Nat) : digitsSpec n ≠ [] := by
  by_cases h10 : n < 10
  · rw [digitsSpec, dif_pos h10]
    simp
  · rw [digitsSpec, dif_neg h10]
    simp

theorem digitsSpec_head_ne_zero : ∀ n : Nat, 1 ≤ n →
    ∃ c rest, digitsSpec n = c :: rest ∧ c ≠ '0' := by
  intro n
  induction n using Nat.strong_induction_on with
  | _ n ih =>
    intro h1
    by_cases h10 : n < 10
    · rw [digitsSpec, dif_pos h10]
      refine ⟨digitChar n, [], rfl, ?_⟩
      interval_cases n <;> decide
    · rw [digitsSpec, dif_neg h10]
      have hd1 : 1 ≤ n / 10 := by
        have := Nat.div_le_div_right (c := 10) (by omega : 10 ≤ n)
        simpa using this
      obtain ⟨c, rest, heq, hc⟩ :=
        ih (n / 10) (Nat.div_lt_self (by omega) (by omega)) hd1
      exact ⟨c, rest ++ [digitChar (n % 10)], by rw [heq]; rfl, hc⟩

theorem leadingOk_digitsSpec (n : Nat) : leadingOk (digitsSpec n) = true := by
  by_cases h1 : 1 ≤ n
  · obtain ⟨c, rest, heq, hc⟩ := digitsSpec_head_ne_zero n h1
    rw [heq]
    cases rest with
    | nil =>
      rw [leadingOk.eq_def]
      split
      · rfl
      · rename_i a tail hcond heq2
        injection heq2 with e1 e2
        exact (hcond e2.symm).elim
      · rfl
    | cons d ds =>
      rw [leadingOk.eq_def]
      split
      · rfl
      · rename_i heq2
        injection heq2 with e1 e2
        exact absurd e1 hc
      · rfl
  · have h0 : n = 0 := by omega
    subst h0
    rw [digitsSpec, dif_pos (by omega : (0 : Nat) < 10)]
    rfl

theorem digitsValue_digitsSpec : ∀ n : Nat, digitsValue (digitsSpec n) = n := by
  intro n
  induction n using Nat.strong_induction_on with
  | _ n ih =>
    by_cases h10 : n < 10
    · rw [digitsSpec, dif_pos h10]
      unfold digitsValue
      simp only [List.foldl_cons, List.foldl_nil]
      interval_cases n <;> decide
    · rw [digitsSpec, dif_neg h10]
      unfold digitsValue at ih ⊢
      rw [List.foldl_append]
      rw [ih (n / 10) (Nat.div_lt_self (by omega) (by omega))]
      simp only [List.foldl_cons, List.foldl_nil]
      have hm : n % 10 < 10 := Nat.mod_lt _ (by omega)
      have hdv : digitVal (digitChar (n % 10)) = n % 10 := by
        interval_cases hmm : n % 10 <;> decide
      rw [hdv]
      omega

/-! ## Number token round trip -/

/-- No-progress condition after a number token: the following character
(if any) is not a digit, a dot or an exponent marker. -/
def numBoundary (s : List Char) : Prop :=
  ∀ c r, s = c :: r → isDig c = false ∧ c ≠ '.' ∧ c ≠ 'e' ∧ c ≠ 'E'

theorem spanDigits_append (ds rest : List Char)
    (hds : ∀ c ∈ ds, isDig c = true)
    (hrest : ∀ c r, rest = c :: r → isDig c = false) :
    spanDigits (ds ++ rest) = (ds, rest) := by
  induction ds with
  | nil =>
    cases rest with
    | nil => rfl
    | cons c r =>
      rw [List.nil_append, spanDigits, if_neg (by simp [hrest c r rfl])]
  | cons d ds' ih =>
    rw [List.cons_append, spanDigits,
      if_pos (hds d (by simp)),
      ih (fun c hc => hds c (by simp [hc]))]

theorem parseUIntToken_digits (n : Nat) (rest : List Char)
    (hb : numBoundary rest) :
    parseUIntToken (digitsSpec n ++ rest) = some (n, rest) := by
  unfold parseUIntToken
  rw [spanDigits_append _ _ (digitsSpec_all_dig n)
    (fun c r h => (hb c r h).1)]
  rw [if_neg (by simp [digitsSpec_ne_nil n] :
    ¬(digitsSpec n, rest).1.isEmpty = true)]
  rw [if_pos (leadingOk_digitsSpec n)]
  cases rest with
  | nil =>
    show some (digitsValue (digitsSpec n), ([] : List Char)) = _
    rw [digitsValue_digitsSpec]
  | cons c r =>
    obtain ⟨-, h2, h3, h4⟩ := hb c r rfl
    show (if (decide (c = '.') || decide (c = 'e') || decide (c = 'E')) = true
        then none
        else some (digitsValue (digitsSpec n), c :: r)) = _
    rw [if_neg (by simp [h2, h3, h4]), digitsValue_digitsSpec]

theorem parseIntToken_intDumps (m : Int) (rest : List Char)
    (hb : numBoundary rest) :
    parseIntToken (intDumps m ++ rest) = some (m, rest) := by
  unfold intDumps
  by_cases hneg : m < 0
  · rw [if_pos hneg, natDigits_eq_spec, List.cons_append, parseIntToken,
      if_pos rfl, parseUIntToken_digits _ _ hb]
    have hm : -((m.natAbs : Nat) : Int) = m := by omega
    rw [Option.map_some']
    rw [hm]
  · rw [if_neg hneg, natDigits_eq_spec]
    obtain ⟨c, ds', heq⟩ : ∃ c ds', digitsSpec m.toNat = c :: ds' := by
      cases hd : digitsSpec m.toNat with
      | nil => exact absurd hd (digitsSpec_ne_nil _)
      | cons c ds' => exact ⟨c, ds', rfl⟩
    have hdig : isDig c = true :=
      digitsSpec_all_dig m.toNat c (by rw [heq]; simp)
    have hcm : c ≠ '-' := by
      intro hcc
      rw [hcc] at hdig
      exact absurd hdig (by decide)
    rw [heq, List.cons_append, parseIntToken, if_neg hcm, ← List.cons_append,
      ← heq, parseUIntToken_digits _ _ hb]
    have hm : ((m.toNat : Nat) : Int) = m := by omega
    rw [Option.map_some']
    rw [hm]

set_option maxHeartbeats 2000000 in
theorem parseVal_succ_default (f : Nat) (c : Char) (s : List Char)
    (h1 : c ≠ '"') (h2 : c ≠ 'n') (h3 : c ≠ 't') (h4 : c ≠ 'f')
    (h5 : c ≠ '[') (h6 : c ≠ '\x7b') :
    parseVal (f + 1) (c :: s) =
      (parseIntToken (c :: s)).map fun p => (JVal.num p.1, p.2) := by
  rw [parseVal.eq_def]
  split
  · rename_i heq
    exact absurd heq (by simp)
  · rename_i a b f2 heq
    have hf : f2 = f := by omega
    subst hf
    split
    · rename_i rest heq2
      injection heq2 with g1 g2
      exact absurd g1 h1
    · rename_i rest heq2
      injection heq2 with g1 g2
      exact absurd g1 h2
    · rename_i rest heq2
      injection heq2 with g1 g2
      exact absurd g1 h3
    · rename_i rest heq2
      injection heq2 with g1 g2
      exact absurd g1 h4
    · rename_i rest heq2
      injection heq2 with g1 g2
      exact absurd g1 h5
    · rename_i rest heq2
      injection heq2 with g1 g2
      exact absurd g1 h6
    · rfl

/-- Round trip for serialized integers at any positive fuel. -/
theorem parseVal_num (f : Nat) (m : Int) (rest : List Char)
    (hb : numBoundary rest) :
    parseVal (f + 1) (intDumps m ++ rest) = some (.num m, rest) := by
  obtain ⟨c, t, heq, hc⟩ : ∃ c t, intDumps m = c :: t ∧
      (c = '-' ∨ isDig c = true) := by
    unfold intDumps
    by_cases hneg : m < 0
    · rw [if_pos hneg]
      exact ⟨'-', _, rfl, Or.inl rfl⟩
    · rw [if_neg hneg, natDigits_eq_spec]
      cases hd : digitsSpec m.toNat with
      | nil => exact absurd hd (digitsSpec_ne_nil _)
      | cons c ds' =>
        refine ⟨c, ds', rfl, Or.inr ?_⟩
        exact digitsSpec_all_dig m.toNat c (by rw [hd]; simp)
  have hne : c ≠ '"' ∧ c ≠ 'n' ∧ c ≠ 't' ∧ c ≠ 'f' ∧ c ≠ '[' ∧
      c ≠ '\x7b' := by
    rcases hc with hc | hc
    · subst hc
      refine ⟨by decide, by decide, by decide, by decide, by decide,
        by decide⟩
    · refine ⟨?_, ?_, ?_, ?_, ?_, ?_⟩ <;>
        (intro hcc; rw [hcc] at hc; exact absurd hc (by decide))
  rw [heq, List.cons_append,
    parseVal_succ_default f c (t ++ rest) hne.1 hne.2.1 hne.2.2.1
      hne.2.2.2.1 hne.2.2.2.2.1 hne.2.2.2.2.2,
    ← List.cons_append, ← heq, parseIntToken_intDumps m rest hb]
  rfl

/-! ## String body round trip -/

/-- Characters that survive the serializer either verbatim (printable
ASCII except quote and backslash) or as the two-character newline
escape; every string this program serializes is built from them. -/
def wfStr (s : List Char) : Prop :=
  ∀ c ∈ s, (0x20 ≤ c.toNat ∧ c.toNat ≤ 0x7e ∧ c ≠ '"' ∧ c ≠ '\\') ∨ c = '\n'

theorem escapeChar_plain (c : Char) (h20 : 0x20 ≤ c.toNat)
    (h7e : c.toNat ≤ 0x7e) (hq : c ≠ '"') (hbs : c ≠ '\\') :
    escapeChar c = [c] := by
  have hn : c ≠ '\n' := by
    intro hcc
    rw [hcc] at h20
    exact absurd h20 (by decide)
  have ht : c ≠ '\t' := by
    intro hcc
    rw [hcc] at h20
    exact absurd h20 (by decide)
  have hr : c ≠ '\r' := by
    intro hcc
    rw [hcc] at h20
    exact absurd h20 (by decide)
  have hb8 : c ≠ '\x08' := by
    intro hcc
    rw [hcc] at h20
    exact absurd h20 (by decide)
  have hbc : c ≠ '\x0c' := by
    intro hcc
    rw [hcc] at h20
    exact absurd h20 (by decide)
  unfold escapeChar
  rw [if_neg hq]
  rw [if_neg hbs]
  rw [if_neg hn]
  rw [if_neg ht]
  rw [if_neg hr]
  rw [if_neg hb8]
  rw [if_neg hbc]
  rw [if_neg (by simp; omega)]

set_option maxHeartbeats 2000000 in
theorem parseStrBody_cons_plain (c : Char) (s : List Char) (h1 : c ≠ '"')
    (h2 : c ≠ '\\') :
    parseStrBody (c :: s) =
      if c.toNat < 0x20 then none
      else (parseStrBody s).map fun p => (c :: p.1, p.2) := by
  rw [parseStrBody.eq_def]
  split
  · rename_i heq
    exact absurd heq (by simp)
  · rename_i rest heq
    injection heq with g1 g2
    exact absurd g1 h1
  · rename_i esc heq
    injection heq with g1 g2
    exact absurd g1 h2
  · rename_i c2 rest hne1 hne2 heq
    injection heq with g1 g2
    subst g1
    subst g2
    rfl

theorem parseStrBody_escape : ∀ (s : List Char), wfStr s →
    ∀ (rest : List Char),
    parseStrBody (escapeList s ++ '"' :: rest) = some (s, rest) := by
  intro s
  induction s with
  | nil => intro _ rest; rfl
  | cons c s' ih =>
    intro hs rest
    have hc := hs c (by simp)
    have hs' : wfStr s' := fun d hd => hs d (by simp [hd])
    rcases hc with ⟨h20, h7e, hq, hbs⟩ | hnl
    · rw [show escapeList (c :: s') = escapeChar c ++ escapeList s' from rfl,
        escapeChar_plain c h20 h7e hq hbs]
      rw [show ([c] ++ escapeList s') ++ '"' :: rest
            = c :: (escapeList s' ++ '"' :: rest) by simp]
      rw [parseStrBody_cons_plain c _ hq hbs, if_neg (by omega), ih hs' rest]
      rfl
    · subst hnl
      show (parseStrBody (escapeList s' ++ '"' :: rest)).map
        (fun p => ('\n' :: p.1, p.2)) = _
      rw [ih hs' rest]
      rfl

/-- Round trip for serialized strings at any positive fuel. -/
theorem parseVal_str (f : Nat) (s : List Char) (hs : wfStr s)
    (rest : List Char) :
    parseVal (f + 1) (json_dumps_val (.str s) ++ rest) =
      some (.str s, rest) := by
  have h2 : json_dumps_val (.str s) ++ rest =
      '"' :: (escapeList s ++ '"' :: rest) := by
    show dumpStr s ++ rest = _
    simp [dumpStr]
  rw [h2]
  show (parseStrBody (escapeList s ++ '"' :: rest)).map
    (fun p => (JVal.str p.1, p.2)) = _
  rw [parseStrBody_escape s hs rest]
  rfl

/-! ## Full JSON round trip -/

mutual
/-- Values whose strings are representable by the serializer model and
whose objects carry distinct keys; everything the program serializes
satisfies it. -/
def wfV : JVal → Prop
  | .null => True
  | .jbool _ => True
  | .num _ => True
  | .str s => wfStr s
  | .arr a => wfA a
  | .obj o => wfO o ∧ (joKeys o).Nodup
/-- Componentwise well-formedness of an array. -/
def wfA : JA → Prop
  | .nil => True
  | .cons h t => wfV h ∧ wfA t
/-- Componentwise well-formedness of an object. -/
def wfO : JO → Prop
  | .nil => True
  | .cons k v t => wfStr k ∧ wfV v ∧ wfO t
end

mutual
/-- Fuel needed by the decoder for one value. -/
def sizeV : JVal → Nat
  | .arr a => sizeA a + 1
  | .obj o => sizeO o + 1
  | _ => 1
/-- Fuel needed by the decoder for an array body. -/
def sizeA : JA → Nat
  | .nil => 1
  | .cons h t => max (sizeV h) (sizeA t) + 1
/-- Fuel needed by the decoder for an object body. -/
def sizeO : JO → Nat
  | .nil => 1
  | .cons _ v t => max (sizeV v) (sizeO t) + 1
end

/-- Concatenation of two member sequences. -/
def joApp : JO → JO → JO
  | .nil, o => o
  | .cons k v t, o => .cons k v (joApp t o)

theorem joApp_nil : ∀ o : JO, joApp o .nil = o
  | .nil => rfl
  | .cons k v t => by rw [joApp, joApp_nil t]

theorem joLookup_joAssign_ne : ∀ (o : JO) (k k' : List Char) (v : JVal),
    k ≠ k' → joLookup (joAssign o k v) k' = joLookup o k'
  | .nil, k, k', v, h => by simp [joAssign, joLookup, h]
  | .cons k0 v0 t, k, k', v, h => by
    by_cases h0 : k0 = k
    · subst h0
      rw [joAssign, if_pos rfl, joLookup, joLookup, if_neg h, if_neg h]
    · rw [joAssign, if_neg h0, joLookup, joLookup]
      by_cases h1 : k0 = k'
      · rw [if_pos h1, if_pos h1]
      · rw [if_neg h1, if_neg h1, joLookup_joAssign_ne t k k' v h]

theorem joAssign_fresh : ∀ (o : JO) (k : List Char) (v : JVal),
    joHasKey o k = false → joAssign o k v = joApp o (.cons k v .nil)
  | .nil, k, v, _ => rfl
  | .cons k0 v0 t, k, v, h => by
    have h0 : k0 ≠ k := by
      intro he
      subst he
      unfold joHasKey at h
      rw [joLookup, if_pos rfl] at h
      simp at h
    have ht : joHasKey t k = false := by
      unfold joHasKey at h ⊢
      rw [joLookup, if_neg h0] at h
      exact h
    rw [joAssign, if_neg h0, joApp, joAssign_fresh t k v ht]

theorem joApp_cons_assoc : ∀ (acc : JO) (k : List Char) (v : JVal) (t : JO),
    joApp (joApp acc (.cons k v .nil)) t = joApp acc (.cons k v t)
  | .nil, k, v, t => rfl
  | .cons k0 v0 acc', k, v, t => by
    show JO.cons k0 v0 (joApp (joApp acc' (.cons k v .nil)) t) =
      JO.cons k0 v0 (joApp acc' (.cons k v t))
    rw [joApp_cons_assoc acc' k v t]

theorem joDedupGo_fresh : ∀ (o acc : JO), (joKeys o).Nodup →
    (∀ k ∈ joKeys o, joHasKey acc k = false) →
    joDedupGo acc o = joApp acc o
  | .nil, acc, _, _ => (joApp_nil acc).symm
  | .cons k v t, acc, hnd, hfresh => by
    show joDedupGo (joAssign acc k v) t = joApp acc (.cons k v t)
    have hk : joHasKey acc k = false := hfresh k (by rw [joKeys]; simp)
    have hnd' : (joKeys t).Nodup := by
      rw [joKeys] at hnd
      exact hnd.of_cons
    have hnotin : k ∉ joKeys t := by
      rw [joKeys] at hnd
      exact (List.nodup_cons.mp hnd).1
    have hfresh' : ∀ k' ∈ joKeys t, joHasKey (joAssign acc k v) k' = false := by
      intro k' hk'
      have hne : k ≠ k' := fun he => hnotin (he ▸ hk')
      unfold joHasKey
      rw [joLookup_joAssign_ne acc k k' v hne]
      exact hfresh k' (by rw [joKeys]; simp [hk'])
    rw [joDedupGo_fresh t (joAssign acc k v) hnd' hfresh',
      joAssign_fresh acc k v hk, joApp_cons_assoc acc k v t]

/-- Decoding an object whose textual keys are distinct is the identity on
the pair sequence. -/
theorem joDedup_nodup (o : JO) (h : (joKeys o).Nodup) : joDedup o = o := by
  unfold joDedup
  rw [joDedupGo_fresh o .nil h (fun k _ => rfl)]
  rfl

/-- The serialized text of an array after the opening bracket, including
the closing bracket. -/
def json_dumps_arrBody : JA → List Char
  | .nil => [']']
  | .cons h t => (json_dumps_val h ++ json_dumps_elems t) ++ [']']

/-- The serialized text of an object after the opening brace, including
the closing brace. -/
def json_dumps_objBody : JO → List Char
  | .nil => ['\x7d']
  | .cons k v t =>
    (dumpStr k ++ ':' :: ' ' :: json_dumps_val v ++ json_dumps_members t)
      ++ ['\x7d']

theorem dumps_arr (a : JA) :
    json_dumps_val (.arr a) = '[' :: json_dumps_arrBody a := by
  cases a <;> rfl

theorem dumps_obj (o : JO) :
    json_dumps_val (.obj o) = '\x7b' :: json_dumps_objBody o := by
  cases o <;> rfl

theorem numBoundary_nil : numBoundary [] := fun _ _ h => absurd h (by simp)

theorem numBoundary_cons (c : Char) (r : List Char)
    (h : isDig c = false ∧ c ≠ '.' ∧ c ≠ 'e' ∧ c ≠ 'E') :
    numBoundary (c :: r) := by
  intro c' r' he
  injection he with h1 h2
  subst h1
  exact h

theorem elems_boundary (t : JA) (rest : List Char) :
    numBoundary (json_dumps_elems t ++ ']' :: rest) := by
  cases t with
  | nil =>
    exact numBoundary_cons ']' rest ⟨by decide, by decide, by decide, by decide⟩
  | cons h2 t2 =>
    exact numBoundary_cons ',' _ ⟨by decide, by decide, by decide, by decide⟩

theorem members_boundary (t : JO) (rest : List Char) :
    numBoundary (json_dumps_members t ++ '\x7d' :: rest) := by
  cases t with
  | nil =>
    exact numBoundary_cons '\x7d' rest
      ⟨by decide, by decide, by decide, by decide⟩
  | cons k v t2 =>
    exact numBoundary_cons ',' _ ⟨by decide, by decide, by decide, by decide⟩

theorem skipWs_cons (c : Char) (s : List Char) (h1 : c ≠ ' ') (h2 : c ≠ '\t')
    (h3 : c ≠ '\n') (h4 : c ≠ '\r') :
    skipWs (c :: s) = c :: s := by
  rw [skipWs, if_neg (by simp [h1, h2, h3, h4])]

theorem skipWs_id_of_head (x : List Char) (c : Char) (r : List Char)
    (heq : x = c :: r) (h1 : c ≠ ' ') (h2 : c ≠ '\t') (h3 : c ≠ '\n')
    (h4 : c ≠ '\r') :
    skipWs x = x := by
  subst heq
  exact skipWs_cons c r h1 h2 h3 h4

theorem skipWs_space (s : List Char) : skipWs (' ' :: s) = skipWs s := by
  rw [skipWs, if_pos (by decide)]

theorem intDumps_start (m : Int) : ∃ c r, intDumps m = c :: r ∧
    (c = '-' ∨ isDig c = true) := by
  unfold intDumps
  by_cases hneg : m < 0
  · rw [if_pos hneg]
    exact ⟨'-', _, rfl, Or.inl rfl⟩
  · rw [if_neg hneg, natDigits_eq_spec]
    cases hd : digitsSpec m.toNat with
    | nil => exact absurd hd (digitsSpec_ne_nil _)
    | cons c ds' =>
      refine ⟨c, ds', rfl, Or.inr ?_⟩
      exact digitsSpec_all_dig m.toNat c (by rw [hd]; simp)

theorem start_of_digit_or_minus (c : Char) (hc : c = '-' ∨ isDig c = true) :
    c ≠ ' ' ∧ c ≠ '\t' ∧ c ≠ '\n' ∧ c ≠ '\r' ∧ c ≠ ']' := by
  rcases hc with hc | hc
  · subst hc
    exact ⟨by decide, by decide, by decide, by decide, by decide⟩
  · refine ⟨?_, ?_, ?_, ?_, ?_⟩ <;>
      (intro he; rw [he] at hc; exact absurd hc (by decide))

theorem dumps_start (v : JVal) : ∃ c r, json_dumps_val v = c :: r ∧
    c ≠ ' ' ∧ c ≠ '\t' ∧ c ≠ '\n' ∧ c ≠ '\r' ∧ c ≠ ']' := by
  cases v with
  | null =>
    exact ⟨'n', _, rfl, by decide, by decide, by decide, by decide, by decide⟩
  | jbool b =>
    cases b with
    | true =>
      exact ⟨'t', _, rfl, by decide, by decide, by decide, by decide,
        by decide⟩
    | false =>
      exact ⟨'f', _, rfl, by decide, by decide, by decide, by decide,
        by decide⟩
  | num n =>
    obtain ⟨c, r, heq, hc⟩ := intDumps_start n
    exact ⟨c, r, heq, start_of_digit_or_minus c hc⟩
  | str s =>
    exact ⟨'"', _, rfl, by decide, by decide, by decide, by decide, by decide⟩
  | arr a =>
    cases a with
    | nil =>
      exact ⟨'[', _, rfl, by decide, by decide, by decide, by decide,
        by decide⟩
    | cons h t =>
      exact ⟨'[', _, rfl, by decide, by decide, by decide, by decide,
        by decide⟩
  | obj o =>
    cases o with
    | nil =>
      exact ⟨'\x7b', _, rfl, by decide, by decide, by decide, by decide,
        by decide⟩
    | cons k v t =>
      exact ⟨'\x7b', _, rfl, by decide, by decide, by decide, by decide,
        by decide⟩

theorem dumps_skipWs (v : JVal) (rest : List Char) :
    skipWs (json_dumps_val v ++ rest) = json_dumps_val v ++ rest := by
  obtain ⟨c, r, heq, h1, h2, h3, h4, _⟩ := dumps_start v
  rw [heq, List.cons_append, skipWs_cons c _ h1 h2 h3 h4]

theorem arrBody_skipWs (a : JA) (rest : List Char) :
    skipWs (json_dumps_arrBody a ++ rest) = json_dumps_arrBody a ++ rest := by
  cases a with
  | nil =>
    exact skipWs_cons ']' rest (by decide) (by decide) (by decide) (by decide)
  | cons h t =>
    obtain ⟨c, r, heq, h1, h2, h3, h4, _⟩ := dumps_start h
    refine skipWs_id_of_head _ c
      (r ++ (json_dumps_elems t ++ ']' :: rest)) ?_ h1 h2 h3 h4
    show ((json_dumps_val h ++ json_dumps_elems t) ++ [']']) ++ rest = _
    rw [heq]
    simp

theorem objBody_skipWs (o : JO) (rest : List Char) :
    skipWs (json_dumps_objBody o ++ rest) = json_dumps_objBody o ++ rest := by
  cases o with
  | nil =>
    exact skipWs_cons '\x7d' rest (by decide) (by decide) (by decide)
      (by decide)
  | cons k v t =>
    refine skipWs_id_of_head _ '"'
      ((escapeList k ++ ['"']) ++
        (':' :: ' ' :: json_dumps_val v ++ json_dumps_members t ++
          '\x7d' :: rest)) ?_ (by decide) (by decide) (by decide) (by decide)
    show ((dumpStr k ++ ':' :: ' ' :: json_dumps_val v ++
        json_dumps_members t) ++ ['\x7d']) ++ rest = _
    rw [show dumpStr k = '"' :: (escapeList k ++ ['"']) from rfl]
    simp

set_option maxHeartbeats 2000000 in
theorem parseArrBody_cons_ne (f : Nat) (c : Char) (s : List Char)
    (h : c ≠ ']') :
    parseArrBody (f + 1) (c :: s) = (do
      let (v, r) ← parseVal f (c :: s)
      match skipWs r with
      | ',' :: r2 => do
        let (tl, r3) ← parseArrBody f (skipWs r2)
        match tl with
        | .nil => none
        | _ => some (JA.cons v tl, r3)
      | ']' :: r2 => some (JA.cons v .nil, r2)
      | _ => none) := by
  rw [parseArrBody.eq_def]
  split
  · rename_i heq
    exact absurd heq (by simp)
  · rename_i a b f2 heq
    have hf : f2 = f := by omega
    subst hf
    split
    · rename_i rest heq2
      injection heq2 with g1 g2
      exact absurd g1 h
    · rfl

set_option maxHeartbeats 2000000 in
theorem parseObjBody_quote (f : Nat) (s : List Char) :
    parseObjBody (f + 1) ('"' :: s) = (do
      let (k, r1) ← parseStrBody s
      match skipWs r1 with
      | ':' :: r2 => do
        let (v, r3) ← parseVal f (skipWs r2)
        match skipWs r3 with
        | ',' :: r4 => do
          let (tl, r5) ← parseObjBody f (skipWs r4)
          match tl with
          | .nil => none
          | _ => some (JO.cons k v tl, r5)
        | '\x7d' :: r4 => some (JO.cons k v .nil, r4)
        | _ => none
      | _ => none) := rfl

set_option maxHeartbeats 4000000 in
/-- Round trip of the decoder over the serializer, simultaneously for
values, array bodies and object bodies, by induction on the fuel. -/
theorem RT_main : ∀ f : Nat,
    (∀ v rest, wfV v → numBoundary rest → sizeV v ≤ f →
      parseVal f (json_dumps_val v ++ rest) = some (v, rest)) ∧
    (∀ a rest, wfA a → sizeA a ≤ f →
      parseArrBody f (json_dumps_arrBody a ++ rest) = some (a, rest)) ∧
    (∀ o rest, wfO o → sizeO o ≤ f →
      parseObjBody f (json_dumps_objBody o ++ rest) = some (o, rest)) := by
  intro f
  induction f with
  | zero =>
    refine ⟨?_, ?_, ?_⟩
    · intro v rest _ _ hsz
      cases v <;> simp [sizeV] at hsz
    · intro a rest _ hsz
      cases a <;> simp [sizeA] at hsz
    · intro o rest _ hsz
      cases o <;> simp [sizeO] at hsz
  | succ f ih =>
    obtain ⟨ihV, ihA, ihO⟩ := ih
    refine ⟨?_, ?_, ?_⟩
    · intro v rest hwf hb hsz
      cases v with
      | null => rfl
      | jbool b => cases b <;> rfl
      | num n => exact parseVal_num f n rest hb
      | str s => exact parseVal_str f s hwf rest
      | arr a =>
        rw [dumps_arr a, List.cons_append]
        show (parseArrBody f (skipWs (json_dumps_arrBody a ++ rest))).map
          (fun p => (JVal.arr p.1, p.2)) = _
        rw [arrBody_skipWs a rest, ihA a rest hwf (by
          have h1 : sizeV (.arr a) = sizeA a + 1 := rfl
          omega)]
        rfl
      | obj o =>
        rw [dumps_obj o, List.cons_append]
        show (parseObjBody f (skipWs (json_dumps_objBody o ++ rest))).map
          (fun p => (JVal.obj (joDedup p.1), p.2)) = _
        rw [objBody_skipWs o rest, ihO o rest hwf.1 (by
          have h1 : sizeV (.obj o) = sizeO o + 1 := rfl
          omega)]
        show some (JVal.obj (joDedup o), rest) = _
        rw [joDedup_nodup o hwf.2]
    · intro a rest hwf hsz
      cases a with
      | nil => rfl
      | cons h t =>
        have hre : json_dumps_arrBody (.cons h t) ++ rest =
            json_dumps_val h ++ (json_dumps_elems t ++ ']' :: rest) := by
          show ((json_dumps_val h ++ json_dumps_elems t) ++ [']']) ++ rest = _
          simp
        obtain ⟨c, r, heq, _, _, _, _, hbr⟩ := dumps_start h
        have hsz1 : sizeV h ≤ f := by
          have h1 : sizeA (.cons h t) = max (sizeV h) (sizeA t) + 1 := rfl
          have h2 := Nat.le_max_left (sizeV h) (sizeA t)
          omega
        have hsz2 : sizeA t ≤ f := by
          have h1 : sizeA (.cons h t) = max (sizeV h) (sizeA t) + 1 := rfl
          have h2 := Nat.le_max_right (sizeV h) (sizeA t)
          omega
        rw [hre, heq, List.cons_append, parseArrBody_cons_ne f c _ hbr,
          ← List.cons_append, ← heq,
          ihV h _ hwf.1 (elems_boundary t rest) hsz1]
        cases t with
        | nil => rfl
        | cons h2 t2 =>
          have hx : skipWs (' ' ::
              ((json_dumps_val h2 ++ json_dumps_elems t2) ++ ']' :: rest))
              = json_dumps_arrBody (.cons h2 t2) ++ rest := by
            rw [skipWs_space]
            have h3 : (json_dumps_val h2 ++ json_dumps_elems t2) ++
                ']' :: rest = json_dumps_arrBody (.cons h2 t2) ++ rest := by
              show _ = ((json_dumps_val h2 ++ json_dumps_elems t2) ++ [']'])
                ++ rest
              simp
            rw [h3, arrBody_skipWs]
          show (parseArrBody f (skipWs (' ' ::
              ((json_dumps_val h2 ++ json_dumps_elems t2) ++
                ']' :: rest)))).bind
            (fun q => match q.1 with
              | .nil => none
              | _ => some (JA.cons h q.1, q.2)) =
            some (JA.cons h (.cons h2 t2), rest)
          rw [hx, ihA (JA.cons h2 t2) rest hwf.2 hsz2]
          rfl
    · intro o rest hwf hsz
      cases o with
      | nil => rfl
      | cons k v t =>
        have hre : json_dumps_objBody (.cons k v t) ++ rest =
            '"' :: (escapeList k ++ '"' :: (':' :: ' ' ::
              (json_dumps_val v ++
                (json_dumps_members t ++ '\x7d' :: rest)))) := by
          show ((dumpStr k ++ ':' :: ' ' :: json_dumps_val v ++
              json_dumps_members t) ++ ['\x7d']) ++ rest = _
          rw [show dumpStr k = '"' :: (escapeList k ++ ['"']) from rfl]
          simp
        have hszv : sizeV v ≤ f := by
          have h1 : sizeO (.cons k v t) = max (sizeV v) (sizeO t) + 1 := rfl
          have h2 := Nat.le_max_left (sizeV v) (sizeO t)
          omega
        have hszt : sizeO t ≤ f := by
          have h1 : sizeO (.cons k v t) = max (sizeV v) (sizeO t) + 1 := rfl
          have h2 := Nat.le_max_right (sizeV v) (sizeO t)
          omega
        rw [hre, parseObjBody_quote f _, parseStrBody_escape k hwf.1 _]
        have hx : skipWs (' ' :: (json_dumps_val v ++
            (json_dumps_members t ++ '\x7d' :: rest)))
            = json_dumps_val v ++ (json_dumps_members t ++ '\x7d' :: rest) := by
          rw [skipWs_space, dumps_skipWs]
        show (parseVal f (skipWs (' ' :: (json_dumps_val v ++
            (json_dumps_members t ++ '\x7d' :: rest))))).bind
          (fun p => match skipWs p.2 with
            | ',' :: r4 =>
              (parseObjBody f (skipWs r4)).bind fun w =>
                match w.1 with
                | .nil => none
                | _ => some (JO.cons k p.1 w.1, w.2)
            | '\x7d' :: r4 => some (JO.cons k p.1 .nil, r4)
            | _ => none) = some (JO.cons k v t, rest)
        rw [hx, ihV v _ hwf.2.1 (members_boundary t rest) hszv]
        cases t with
        | nil => rfl
        | cons k2 v2 t2 =>
          have hx2 : skipWs (' ' ::
              (json_dumps_objBody (.cons k2 v2 t2) ++ rest))
              = json_dumps_objBody (.cons k2 v2 t2) ++ rest := by
            rw [skipWs_space, objBody_skipWs]
          have hm : json_dumps_members (.cons k2 v2 t2) ++ '\x7d' :: rest
              = ',' :: ' ' :: (json_dumps_objBody (.cons k2 v2 t2) ++ rest) := by
            show (',' :: ' ' :: (dumpStr k2 ++ ':' :: ' ' ::
              json_dumps_val v2 ++ json_dumps_members t2)) ++ '\x7d' :: rest = _
            simp [json_dumps_objBody]
          show (match skipWs (json_dumps_members (.cons k2 v2 t2) ++
              '\x7d' :: rest) with
            | ',' :: r4 =>
              (parseObjBody f (skipWs r4)).bind fun w =>
                match w.1 with
                | .nil => none
                | _ => some (JO.cons k v w.1, w.2)
            | '\x7d' :: r4 => some (JO.cons k v .nil, r4)
            | _ => none) = some (JO.cons k v (.cons k2 v2 t2), rest)
          rw [hm, skipWs_cons ',' _ (by decide) (by decide) (by decide)
            (by decide)]
          show (parseObjBody f (skipWs (' ' ::
              (json_dumps_objBody (.cons k2 v2 t2) ++ rest)))).bind
            (fun w => match w.1 with
              | .nil => none
              | _ => some (JO.cons k v w.1, w.2)) = _
          rw [hx2, ihO (JO.cons k2 v2 t2) rest hwf.2.2 hszt]
          rfl

theorem dumps_len_pos (v : JVal) : 1 ≤ (json_dumps_val v).length := by
  obtain ⟨c, r, heq, _⟩ := dumps_start v
  rw [heq]
  simp

theorem arrBody_len (t : JA) :
    (json_dumps_arrBody t).length ≤ (json_dumps_elems t).length + 1 := by
  cases t <;> simp [json_dumps_arrBody, json_dumps_elems] <;> omega

theorem objBody_len (t : JO) :
    (json_dumps_objBody t).length ≤ (json_dumps_members t).length + 1 := by
  cases t <;> simp [json_dumps_objBody, json_dumps_members] <;> omega

mutual
theorem sizeV_le : ∀ v : JVal, sizeV v ≤ (json_dumps_val v).length
  | .null => by decide
  | .jbool b => by cases b <;> decide
  | .num n => by
    obtain ⟨c, r, heq, _⟩ := intDumps_start n
    show 1 ≤ (intDumps n).length
    rw [heq]
    simp
  | .str s => by
    show 1 ≤ (dumpStr s).length
    simp [dumpStr]
  | .arr a => by
    have h := sizeA_le a
    show sizeA a + 1 ≤ (json_dumps_val (.arr a)).length
    rw [dumps_arr]
    simp
    omega
  | .obj o => by
    have h := sizeO_le o
    show sizeO o + 1 ≤ (json_dumps_val (.obj o)).length
    rw [dumps_obj]
    simp
    omega
theorem sizeA_le : ∀ a : JA, sizeA a ≤ (json_dumps_arrBody a).length
  | .nil => by decide
  | .cons h t => by
    have h1 := sizeV_le h
    have h2 := sizeA_le t
    have h3 := arrBody_len t
    have h4 := dumps_len_pos h
    have h5 : max (sizeV h) (sizeA t) ≤
        (json_dumps_val h).length + (json_dumps_elems t).length :=
      Nat.max_le.mpr ⟨by omega, by omega⟩
    show max (sizeV h) (sizeA t) + 1 ≤
      ((json_dumps_val h ++ json_dumps_elems t) ++ [']']).length
    simp
    omega
theorem sizeO_le : ∀ o : JO, sizeO o ≤ (json_dumps_objBody o).length
  | .nil => by decide
  | .cons k v t => by
    have h1 := sizeV_le v
    have h2 := sizeO_le t
    have h3 := objBody_len t
    have h4 : 2 ≤ (dumpStr k).length := by simp [dumpStr]
    have h5 : max (sizeV v) (sizeO t) ≤
        (dumpStr k).length + (json_dumps_val v).length +
          (json_dumps_members t).length :=
      Nat.max_le.mpr ⟨by omega, by omega⟩
    show max (sizeV v) (sizeO t) + 1 ≤
      ((dumpStr k ++ ':' :: ' ' :: json_dumps_val v ++
        json_dumps_members t) ++ ['\x7d']).length
    simp
    omega
end

/-- json.loads decodes json.dumps back to the original value for every
well-formed value. -/
theorem json_loads_dumps (v : JVal) (hwf : wfV v) :
    json_loads (json_dumps v) = some v := by
  unfold json_loads json_dumps
  have h0 : skipWs (json_dumps_val v) = json_dumps_val v := by
    obtain ⟨c, r, heq, h1, h2, h3, h4, _⟩ := dumps_start v
    exact skipWs_id_of_head _ c r heq h1 h2 h3 h4
  rw [h0]
  have hle : sizeV v ≤ 2 * (json_dumps_val v).length + 4 := by
    have := sizeV_le v
    omega
  have h2 : parseVal (2 * (json_dumps_val v).length + 4)
      (json_dumps_val v ++ []) = some (v, []) :=
    (RT_main _).1 v [] hwf numBoundary_nil hle
  rw [List.append_nil] at h2
  rw [h2]
  rfl

/-! ## The simulated dict round trip -/

instance instDecidableWfStr (s : List Char) : Decidable (wfStr s) :=
  List.decidableBAll _ s

theorem wfV_str (s : List Char) (h : wfStr s) : wfV (.str s) := h

theorem joKeys_cons (k : List Char) (v : JVal) (t : JO) :
    joKeys (.cons k v t) = k :: joKeys t := rfl

theorem joKeys_nil : joKeys .nil = [] := rfl

theorem wf_issueJ (k : Nat) : wfV (issueJ k) := by
  refine ⟨⟨by decide, trivial, by decide, wfV_str _ (by decide), by decide,
    wfV_str _ (by decide), by decide, wfV_str _ (by decide), trivial⟩, ?_⟩
  simp only [joKeys_cons, joKeys_nil]
  decide

theorem wf_fixJ : wfV fixJ :=
  ⟨⟨by decide, wfV_str _ (by decide), by decide, wfV_str _ (by decide),
    trivial⟩, by decide⟩

theorem wf_simScan (l : List (Nat × List Char)) :
    wfA (simScan l).1 ∧ wfA (simScan l).2.1 ∧ wfA (simScan l).2.2 := by
  induction l with
  | nil => exact ⟨trivial, trivial, trivial⟩
  | cons hd tl ih =>
    obtain ⟨i1, i2, i3⟩ := ih
    obtain ⟨idx, line⟩ := hd
    simp only [simScan]
    split
    · exact ⟨⟨wf_issueJ idx, i1⟩, ⟨wfV_str _ (by decide), i2⟩,
        ⟨wf_fixJ, i3⟩⟩
    · exact ⟨i1, i2, i3⟩

theorem wf_simJO (p : List Char) : wfV (.obj (simJO p)) := by
  obtain ⟨s1, s2, s3⟩ := wf_simScan (enumFrom 1 (pySplitlines (extract_code p)))
  refine ⟨?_, ?_⟩
  · show wfO (simJO p)
    simp only [simJO]
    refine ⟨by decide, ?_, by decide, s1, by decide, s2, by decide, s3,
      by decide, wfV_str _ (by decide), by decide,
      ⟨wfV_str _ (by decide), trivial⟩, by decide,
      ⟨⟨by decide, wfV_str _ (by decide), by decide, wfV_str _ (by decide),
        trivial⟩, by decide⟩,
      trivial⟩
    split
    · exact wfV_str _ (by decide)
    · exact wfV_str _ (by decide)
  · show (joKeys (simJO p)).Nodup
    rw [show joKeys (simJO p) = ["summary".data, "issues".data,
      "suggestions".data, "automatic_fixes".data, "effort_estimate".data,
      "docs_updates".data, "metadata".data] from rfl]
    decide

/-- The simulated analysis text decodes back to the simulated dict. -/
theorem loads_simulate (p : List Char) :
    json_loads (simulate_analysis p) = some (.obj (simJO p)) :=
  json_loads_dumps (.obj (simJO p)) (wf_simJO p)

/-- The parsing block of analyze_code on the simulated analysis text: the
decode succeeds, metadata is already present with a language key, so both
setdefault calls keep the dict and the reassignment stores the identical
metadata value back. -/
theorem parse_simulate (p lang : List Char) :
    parse_llm_output (simulate_analysis p) lang = simJO p := by
  unfold parse_llm_output
  rw [loads_simulate p]
  rfl

/-- The structured counterpart of the scanning loop: the same walk
producing data-model issues, suggestion texts and fixes. -/
def simScanR : List (Nat × List Char) →
    List IssueR × List (List Char) × List FixR
  | [] => ([], [], [])
  | (idx, line) :: rest =>
    let p := simScanR rest
    if lineMatches line then
      (⟨.num idx, .high, "ZeroDivisionError possible".data,
        ("Division by zero detected. This will raise an exception " ++
          "at runtime.").data⟩ :: p.1,
       suggestionStr :: p.2.1,
       ⟨"Add check for zero denominator".data,
        ("if b != 0:\n    result = a / b\nelse:\n" ++
          "    result = None  # handle error").data⟩ :: p.2.2)
    else p

theorem simScan_eq (l : List (Nat × List Char)) :
    simScan l = (jaOfList ((simScanR l).1.map IssueR.toJ),
      jaOfList (((simScanR l).2.1).map JVal.str),
      jaOfList (((simScanR l).2.2).map FixR.toJ)) := by
  induction l with
  | nil => rfl
  | cons hd tl ih =>
    obtain ⟨idx, line⟩ := hd
    simp only [simScan, simScanR]
    split
    · rw [ih]
      rfl
    · exact ih

/-- The AnalysisResult whose dict simulate_analysis serializes. -/
def simAR (p : List Char) : AnalysisResult :=
  let scan := simScanR (enumFrom 1 (pySplitlines (extract_code p)))
  ⟨if scan.1 = [] then summaryBase ++ summaryNoIssues else summaryBase,
   scan.1, scan.2.1, scan.2.2,
   some "5-15 minutes".data,
   ["Add README section describing usage.".data],
   [("language".data, "python".data),
    ("analysis_time".data, "simulated".data)]⟩

theorem simJO_eq_toJO (p : List Char) : simJO p = (simAR p).toJO := by
  simp only [simJO, simAR, AnalysisResult.toJO]
  rw [simScan_eq]
  have hiff : (jaOfList ((simScanR (enumFrom 1 (pySplitlines
        (extract_code p)))).1.map IssueR.toJ) = JA.nil) =
      ((simScanR (enumFrom 1 (pySplitlines (extract_code p)))).1 = []) := by
    cases h : (simScanR (enumFrom 1 (pySplitlines (extract_code p)))).1 with
    | nil => simp [jaOfList]
    | cons a t => simp [jaOfList]
  simp only [hiff]
  rfl

/-- The formatter succeeds on the simulated dict. -/
theorem format_simulate (p : List Char) :
    format_analysis (simJO p) =
      .ok (secSummary (simAR p) ++ secIssues (simAR p) ++
        secSuggestions (simAR p) ++ secFixes (simAR p) ++
        secEffort (simAR p) ++ secDocs (simAR p)) := by
  rw [simJO_eq_toJO]
  exact format_analysis_toJO (simAR p)

/-- The except-branch dict is the dict of an AnalysisResult. -/
theorem fallback_toJO (raw lang : List Char) :
    fallbackJO raw lang = AnalysisResult.toJO
      ⟨raw, [], [], [], none, [], [("language".data, lang)]⟩ := rfl

/-- The handler on the remote-failure path with request_pdf false: the
heuristic output decodes, the parse block keeps it, the formatter
succeeds, and the JSON body carries the simulated dict. -/
theorem analyze_failure_path (env : Env) (req : CodeRequest)
    (hne : (pyStrip req.code).isEmpty = false) (hllm : env.llm = .failure)
    (hpdf : req.request_pdf = false) :
    analyze_code env req = .ok (.jsonBody
      (secSummary (simAR (build_prompt req.code req.language)) ++
        secIssues (simAR (build_prompt req.code req.language)) ++
        secSuggestions (simAR (build_prompt req.code req.language)) ++
        secFixes (simAR (build_prompt req.code req.language)) ++
        secEffort (simAR (build_prompt req.code req.language)) ++
        secDocs (simAR (build_prompt req.code req.language)))
      (simJO (build_prompt req.code req.language))) := by
  simp only [analyze_code, hne, hllm, hpdf, call_llm, Bool.false_eq_true,
    if_false]
  rw [parse_simulate, format_simulate]

/-- The handler on the decode-failure path with request_pdf false: the
completion text does not decode, the except branch wraps it, the
formatter renders the Summary section alone. -/
theorem analyze_decode_failure_path (env : Env) (req : CodeRequest)
    (c : List Char) (hne : (pyStrip req.code).isEmpty = false)
    (hllm : env.llm = .success c) (hloads : json_loads c = none)
    (hpdf : req.request_pdf = false) :
    analyze_code env req = .ok (.jsonBody
      (secSummary ⟨c, [], [], [], none, [],
        [("language".data, req.language)]⟩)
      (fallbackJO c req.language)) := by
  have hp : parse_llm_output c req.language = fallbackJO c req.language := by
    unfold parse_llm_output
    rw [hloads]
  simp only [analyze_code, hne, hllm, hpdf, call_llm, Bool.false_eq_true,
    if_false]
  rw [hp, fallback_toJO, format_analysis_toJO]
  rw [show secIssues ⟨c, [], [], [], none, [],
      [("language".data, req.language)]⟩ = [] from rfl,
    show secSuggestions ⟨c, [], [], [], none, [],
      [("language".data, req.language)]⟩ = [] from rfl,
    show secFixes ⟨c, [], [], [], none, [],
      [("language".data, req.language)]⟩ = [] from rfl,
    show secEffort ⟨c, [], [], [], none, [],
      [("language".data, req.language)]⟩ = [] from rfl,
    show secDocs ⟨c, [], [], [], none, [],
      [("language".data, req.language)]⟩ = [] from rfl]
  simp

/-- Claim C5: for every prompt input the heuristic succeeds and its
output text decodes back to a JSON object carrying all seven
AnalysisResult fields (summary, issues, suggestions, automatic_fixes,
effort_estimate, docs_updates, metadata); and whenever the remote model
call fails (non-empty code, request_pdf false), the handler's JSON
response carries a raw dict whose metadata.analysis_time equals
"simulated". -/
theorem C5_heuristic_schema (p : List Char) (env : Env) (req : CodeRequest)
    (hne : (pyStrip req.code).isEmpty = false) (hllm : env.llm = .failure)
    (hpdf : req.request_pdf = false) :
    (json_loads (simulate_analysis p) = some (.obj (simJO p)) ∧
      ∀ k ∈ ["summary".data, "issues".data, "suggestions".data,
        "automatic_fixes".data, "effort_estimate".data, "docs_updates".data,
        "metadata".data], joHasKey (simJO p) k = true) ∧
    (∃ formatted raw,
      analyze_code env req = .ok (.jsonBody formatted raw) ∧
      ∃ m, joLookup raw "metadata".data = some (.obj m) ∧
        joLookup m "analysis_time".data = some (.str "simulated".data)) := by
  refine ⟨⟨loads_simulate p, ?_⟩, ?_⟩
  · intro k hk
    fin_cases hk <;> rfl
  · refine ⟨_, _, analyze_failure_path env req hne hllm hpdf,
      .cons "language".data (.str "python".data)
        (.cons "analysis_time".data (.str "simulated".data) .nil), rfl, rfl⟩

/-- Witness for C5 at a concrete prompt, a failing model server and a
one-character code request. -/
theorem C5_heuristic_schema_witness :
    (json_loads (simulate_analysis "q".data) =
        some (.obj (simJO "q".data)) ∧
      ∀ k ∈ ["summary".data, "issues".data, "suggestions".data,
        "automatic_fixes".data, "effort_estimate".data, "docs_updates".data,
        "metadata".data],
        joHasKey (simJO "q".data) k = true) ∧
    (∃ formatted raw,
      analyze_code ⟨.failure, true, true⟩
          ⟨"x".data, "python".data, false⟩ =
        .ok (.jsonBody formatted raw) ∧
      ∃ m, joLookup raw "metadata".data = some (.obj m) ∧
        joLookup m "analysis_time".data = some (.str "simulated".data)) :=
  C5_heuristic_schema "q".data ⟨.failure, true, true⟩
    ⟨"x".data, "python".data, false⟩ rfl rfl rfl

/-- Claim C10: the heuristic hard-codes metadata.language as the literal
"python", and the parse block only fills that key when absent, so every
request served by the heuristic fallback reports raw.metadata.language =
"python" whatever language the request declared. -/
theorem C10_language_python (env : Env) (req : CodeRequest)
    (hne : (pyStrip req.code).isEmpty = false) (hllm : env.llm = .failure)
    (hpdf : req.request_pdf = false) :
    ∃ formatted raw,
      analyze_code env req = .ok (.jsonBody formatted raw) ∧
      ∃ m, joLookup raw "metadata".data = some (.obj m) ∧
        joLookup m "language".data = some (.str "python".data) :=
  ⟨_, _, analyze_failure_path env req hne hllm hpdf,
    .cons "language".data (.str "python".data)
      (.cons "analysis_time".data (.str "simulated".data) .nil), rfl, rfl⟩

/-- Witness for C10 at a request that declares language "java": the
reported language is still "python". -/
theorem C10_language_python_witness :
    (∃ formatted raw,
      analyze_code ⟨.failure, true, true⟩ ⟨"a".data, "java".data, false⟩ =
        .ok (.jsonBody formatted raw) ∧
      ∃ m, joLookup raw "metadata".data = some (.obj m) ∧
        joLookup m "language".data = some (.str "python".data)) ∧
    "java".data ≠ "python".data :=
  ⟨C10_language_python ⟨.failure, true, true⟩
    ⟨"a".data, "java".data, false⟩ rfl rfl rfl, by decide⟩

/-- Claim C1 is refuted as stated: a model completion that decodes to the
JSON object with an integer issues field makes the formatter iterate a
non-iterable, the TypeError escapes the handler, and the caller receives
an internal server error rather than a 200 body. -/
theorem C1_success_counterexample :
    analyze_code
      ⟨.success ('\x7b' :: ("\"issues\": 1".data ++ ['\x7d'])), true, true⟩
      ⟨"x".data, "python".data, false⟩ = .error .typeError := rfl

/-- Claim C1, corrected: when the analysis falls back — the remote call
fails, or its completion does not decode as JSON — the handler with
non-empty code and request_pdf false always returns the success response
with the formatted_analysis/raw JSON body; no failure of these paths is
surfaced.  (The claim is false for arbitrary completions: see the
counterexample, where a decodable completion with an unusable field type
raises inside the formatter.) -/
theorem C1_success_amended (env : Env) (req : CodeRequest)
    (hne : (pyStrip req.code).isEmpty = false)
    (hpdf : req.request_pdf = false)
    (h : env.llm = .failure ∨
      ∃ c, env.llm = .success c ∧ json_loads c = none) :
    ∃ formatted raw,
      analyze_code env req = .ok (.jsonBody formatted raw) := by
  rcases h with hllm | ⟨c, hllm, hloads⟩
  · exact ⟨_, _, analyze_failure_path env req hne hllm hpdf⟩
  · exact ⟨_, _, analyze_decode_failure_path env req c hne hllm hloads hpdf⟩

/-- Witness for the amended C1 on both recovery paths: a failing model
server, and a model completion that is not JSON. -/
theorem C1_success_amended_witness :
    (∃ formatted raw,
      analyze_code ⟨.failure, true, true⟩ ⟨"y".data, "python".data, false⟩ =
        .ok (.jsonBody formatted raw)) ∧
    (∃ formatted raw,
      analyze_code ⟨.success "hello".data, true, true⟩
        ⟨"y".data, "python".data, false⟩ = .ok (.jsonBody formatted raw)) :=
  ⟨C1_success_amended ⟨.failure, true, true⟩
    ⟨"y".data, "python".data, false⟩ rfl rfl (Or.inl rfl),
   C1_success_amended ⟨.success "hello".data, true, true⟩
    ⟨"y".data, "python".data, false⟩ rfl rfl
    (Or.inr ⟨"hello".data, rfl, rfl⟩)⟩

/-- Claim C8: for every request with request_pdf true where the PDF
library is unavailable or PDF rendering fails, once the formatter
produced its text the response is a text/plain file named analysis.txt
whose body is exactly that formatted text. -/
theorem C8_pdf_fallback_text (env : Env) (req : CodeRequest)
    (formatted : List Char)
    (hne : (pyStrip req.code).isEmpty = false)
    (hpdf : req.request_pdf = true)
    (hfail : env.pdf_available = false ∨ env.pdf_render_ok = false)
    (hfmt : format_analysis (parse_llm_output
        (call_llm env.llm (build_prompt req.code req.language))
        req.language) = .ok formatted) :
    analyze_code env req =
      .ok (.textFile "text/plain".data "analysis.txt".data formatted) := by
  have hcond : (env.pdf_available && env.pdf_render_ok) = false := by
    rcases hfail with hf | hf <;> simp [hf]
  simp only [analyze_code, hne, hpdf, hcond, Bool.false_eq_true, if_false,
    if_true]
  rw [hfmt]

/-- Witness for C8: a failing model server, no PDF library, one concrete
request; the body of the returned text file is the formatter's output. -/
theorem C8_pdf_fallback_text_witness :
    ∃ s, analyze_code ⟨.failure, false, true⟩
        ⟨"ok".data, "python".data, true⟩ =
      .ok (.textFile "text/plain".data "analysis.txt".data s) :=
  ⟨_, C8_pdf_fallback_text ⟨.failure, false, true⟩
    ⟨"ok".data, "python".data, true⟩ _ rfl rfl (Or.inl rfl)
    (by rw [show call_llm LLMOutcome.failure
          (build_prompt "ok".data "python".data) =
        simulate_analysis (build_prompt "ok".data "python".data) from rfl,
      parse_simulate, format_simulate])⟩
